import Mathlib

set_option maxRecDepth 10000

/-!
Verification of the youtube-looper core against its specification.

The TypeScript sources are shallowly embedded in Lean:

* JavaScript numbers are modelled as exact rationals (`ℚ`).  `x.toFixed(2)`
  followed by `Number(...)` is modelled as rounding to two decimal places
  (`roundTwo`), with ties rounding up, which agrees with `toFixed` on the
  exact decimal values the code manipulates.
* JSON texts are modelled at the value level by the inductive type `Json`;
  `JSON.parse` / `JSON.stringify` are treated as the (partial) inverse pair
  between texts and values, so the segment codec is stated over `Json`
  values (and over an abstract parse oracle where a text-level statement is
  needed).
* Strings are processed over their character lists; the JavaScript string
  primitives used by the sources (`trim`, `split`, `includes`, `padStart`,
  `Number(...)`, the `URL` constructor, `URLSearchParams`) are given
  explicit executable models below, faithful on the inputs the theorems
  exercise.
* React state hooks become a record `LooperState`; each event handler of
  `useLooperState` becomes a pure state transformer.  Fresh segment ids
  (`generateSegmentId`) are supplied through an explicit `idOf` / `freshId`
  parameter since the source draws them from a random source.
-/

/-! ## Characters and strings: JavaScript-style primitives -/

/-- JavaScript whitespace characters relevant to `String.prototype.trim`
(restricted to the ASCII whitespace the application can meet). -/
def isJsWs (c : Char) : Bool :=
  c = ' ' || c = '\t' || c = '\n' || c = '\r'

/-- Model of `value.trim()` on a character list: strip leading and trailing
whitespace. -/
def jsTrim (l : List Char) : List Char :=
  ((l.dropWhile isJsWs).reverse.dropWhile isJsWs).reverse

/-- ASCII decimal digit test, as used by the `/^\d+$/` check in
`parseTimestampInput`. -/
def isDigitCh (c : Char) : Bool :=
  '0' ≤ c && c ≤ '9'

/-- Numeric value of an ASCII digit character. -/
def digitVal (c : Char) : ℕ :=
  c.toNat - 48

/-- Digit character for a value below ten. -/
def digitCh (n : ℕ) : Char :=
  Char.ofNat (48 + n)

/-- Value of a most-significant-first list of ASCII digit characters (the
accumulator form used by `Number.parseInt(_, 10)` on an all-digit string;
leading zeros are harmless). -/
def digitsVal (l : List Char) : ℕ :=
  l.foldl (fun a c => a * 10 + digitVal c) 0

/-- All characters are ASCII digits (`/^\d+$/` on a character list). -/
def allDigits (l : List Char) : Bool :=
  l.all isDigitCh

/-- Least-significant-first decimal digits of a natural number, with an
explicit fuel argument to keep the recursion structural. -/
def revDigits : ℕ → ℕ → List ℕ
  | 0, _ => []
  | fuel + 1, n => if n = 0 then [] else n % 10 :: revDigits fuel (n / 10)

/-- Decimal rendering of a natural number (model of JavaScript
`Number.prototype.toString` on a nonnegative integer value). -/
def decString (n : ℕ) : List Char :=
  if n = 0 then ['0'] else ((revDigits n n).map digitCh).reverse

/-- Model of `s.padStart(2, "0")`. -/
def padTwo (l : List Char) : List Char :=
  if l.length < 2 then List.replicate (2 - l.length) '0' ++ l else l

/-- Split a character list at every occurrence of a separator character
(model of `String.prototype.split` with a single-character separator: the
result is never empty and keeps empty fields). -/
def splitOnCh (sep : Char) : List Char → List (List Char)
  | [] => [[]]
  | c :: rest =>
    match splitOnCh sep rest with
    | [] => if c = sep then [[], []] else [[c]]
    | r :: rs => if c = sep then [] :: r :: rs else (c :: r) :: rs

/-! ## Exact model of the numeric conversions -/

/-- Model of `Number(x.toFixed(2))` on an exact rational: round to two
decimal places, ties upward. -/
def roundTwo (q : ℚ) : ℚ :=
  ((⌊q * 100 + 1 / 2⌋ : ℤ) : ℚ) / 100

/-- Unsigned part of the decimal-literal grammar accepted by the model of
JavaScript `Number(...)`: `digits`, `digits.digits`, `digits.` or
`.digits`.  Returns `none` for NaN. -/
def jsUnsignedNumber (l : List Char) : Option ℚ :=
  let intPart := l.takeWhile isDigitCh
  let rest := l.dropWhile isDigitCh
  match rest with
  | [] => if intPart.isEmpty then none else some ((digitsVal intPart : ℚ))
  | '.' :: frac =>
    if allDigits frac && !(intPart.isEmpty && frac.isEmpty) then
      some ((digitsVal intPart : ℚ) + (digitsVal frac : ℚ) / (10 : ℚ) ^ frac.length)
    else none
  | _ => none

/-- Model of JavaScript `Number(str)` restricted to optionally signed
decimal literals with surrounding whitespace (the shapes the application
feeds it); every other text is modelled as NaN (`none`).  The empty and
all-whitespace strings evaluate to `0`, as in JavaScript. -/
def jsNumber (l : List Char) : Option ℚ :=
  match jsTrim l with
  | [] => some 0
  | '-' :: rest => (jsUnsignedNumber rest).map (fun q => -q)
  | '+' :: rest => jsUnsignedNumber rest
  | t => jsUnsignedNumber t

/-! ## Data model: loop segments -/

/-- Embedding of the `LoopSegment` record of `src/lib/segments.ts`; the
source's `end` field is called `stop` here because `end` is a Lean
keyword. -/
structure LoopSegment where
  id : String
  label : String
  start : ℚ
  stop : ℚ
  deriving DecidableEq, Repr

/-- Observable content of a segment: the `(label, start, end)` triple (ids
are ephemeral by design). -/
def LoopSegment.triple (s : LoopSegment) : String × ℚ × ℚ :=
  (s.label, s.start, s.stop)

/-- Insert an element into a list so that every earlier element satisfies
`le _ x`; inserting after equal keys makes the enclosing sort stable, which
matches the stable `Array.prototype.sort` used by the sources. -/
def insertLe (le : LoopSegment → LoopSegment → Bool) (x : LoopSegment) :
    List LoopSegment → List LoopSegment
  | [] => [x]
  | y :: ys => if le y x then y :: insertLe le x ys else x :: y :: ys

/-- Stable sort by repeated insertion, processing the input left to right
(model of `array.sort((a, b) => a.start - b.start)`). -/
def stableSortLe (le : LoopSegment → LoopSegment → Bool) (l : List LoopSegment) :
    List LoopSegment :=
  l.foldl (fun acc x => insertLe le x acc) []

/-- Comparison used by both sort sites in the sources. -/
def byStart (a b : LoopSegment) : Bool :=
  a.start ≤ b.start

/-! ## JSON values -/

/-- Value-level model of JSON, the output type of `JSON.parse`. -/
inductive Json where
  | null : Json
  | bool : Bool → Json
  | num : ℚ → Json
  | str : String → Json
  | arr : List Json → Json
  | obj : List (String × Json) → Json

/-- Field lookup on a JSON value, modelling JavaScript property access
`entry.key`: `none` plays the role of `undefined` (also for index access on
non-objects; property access on arrays with these names yields
`undefined` as well). -/
def Json.getField (j : Json) (key : String) : Option Json :=
  match j with
  | .obj fields => (fields.find? (fun f => f.1 = key)).map (fun f => f.2)
  | _ => none

/-! ## Segment codec (`src/lib/segments.ts`) -/

/-- String wrapper around `jsTrim`. -/
def strTrim (s : String) : String :=
  ⟨jsTrim s.data⟩

/-- Model of JavaScript `Number(value)` coercion on a JSON value
(`none` argument plays `undefined`; a `none` result is NaN).  Strings go
through the decimal-literal model; `null` coerces to `0`, booleans to `0`
or `1`.  The exotic `ToPrimitive` coercions of arrays and objects are
modelled as NaN; no theorem below exercises them. -/
def jsCoerceNumber : Option Json → Option ℚ
  | some (.num q) => some q
  | some (.str s) => jsNumber s.data
  | some (.bool b) => some (if b then 1 else 0)
  | some .null => some 0
  | _ => none

/-- Embedding of `sanitizeTimestamp` (`segments.ts` lines 25-31): coerce to
a number, reject NaN, clamp to `≥ 0` after rounding to two decimals. -/
def sanitizeTimestamp (v : Option Json) : Option ℚ :=
  match jsCoerceNumber v with
  | none => none
  | some q => some (max 0 (roundTwo q))

/-- Default label for the entry at 0-based index `i`: `"Loop " + (i+1)`. -/
def defaultLabel (i : ℕ) : String :=
  ⟨('L' :: 'o' :: 'o' :: 'p' :: ' ' :: decString (i + 1))⟩

/-- Embedding of the per-entry body of the `map` inside
`parseSegmentsParam`: `none` models the `null` entries that the subsequent
`filter` discards. -/
def decodeSegmentEntry (idOf : ℕ → String) (i : ℕ) (e : Json) :
    Option LoopSegment :=
  match e with
  | .arr _ | .obj _ =>
    let rawLabel := match e.getField "label" with
      | some (.str s) => s
      | _ => defaultLabel i
    let label := if strTrim rawLabel = "" then defaultLabel i else strTrim rawLabel
    match sanitizeTimestamp (e.getField "start"), sanitizeTimestamp (e.getField "end") with
    | some s, some t =>
      some { id := idOf i, label := label, start := min s t, stop := max s t }
    | _, _ => none
  | _ => none

/-- Decode a list of entries carrying their 0-based indices from `n` on
(the `(entry, index) => ...` map of the source, written as an index-passing
recursion). -/
def decodeEntriesFrom (idOf : ℕ → String) : ℕ → List Json → List (Option LoopSegment)
  | _, [] => []
  | n, e :: es => decodeSegmentEntry idOf n e :: decodeEntriesFrom idOf (n + 1) es

/-- Embedding of `parseSegmentsParam` (`segments.ts` lines 33-79) from the
parsed JSON value on: a non-array value yields the empty list; entries are
decoded in order with their original index, dropped entries removed
(`filter` of the `null`s), and the survivors sorted ascending by `start`
with the stable sort. -/
def parseSegmentsJson (idOf : ℕ → String) (j : Json) : List LoopSegment :=
  match j with
  | .arr entries =>
    stableSortLe byStart (decodeEntriesFrom idOf 0 entries).reduceOption
  | _ => []

/-- Lifting of `parseSegmentsJson` to an optional JSON value: `none`
covers a missing/empty parameter and an unparseable text (the `catch`
branch), both of which the source maps to the empty list. -/
def parseSegmentsOpt (idOf : ℕ → String) : Option Json → List LoopSegment
  | none => []
  | some j => parseSegmentsJson idOf j

/-- Text-level `parseSegmentsParam value`, abstracting `JSON.parse` as an
oracle `jsonParse` (`none` = the parse throws): the falsy check on the
argument, the `catch` recovery, and the value-level decoding. -/
def parseSegmentsParam (jsonParse : String → Option Json) (idOf : ℕ → String) :
    Option String → List LoopSegment
  | none => []
  | some s =>
    if s = "" then []
    else
      match jsonParse s with
      | none => []
      | some j => parseSegmentsJson idOf j

/-- Embedding of `serializeSegments` (`segments.ts` lines 81-98) at the
JSON-value level: the empty list yields `none` (no parameter emitted);
otherwise each segment maps to an object carrying its label and its bounds
rounded to two decimals, ids dropped.  `JSON.stringify` cannot throw on
these values, so the `try`/`catch` is invisible at this level. -/
def serEntryJson (s : LoopSegment) : Json :=
  .obj [("label", .str s.label),
        ("start", .num (roundTwo s.start)),
        ("end", .num (roundTwo s.stop))]

def serializeSegmentsJson (segments : List LoopSegment) : Option Json :=
  if segments.length = 0 then none
  else some (.arr (segments.map serEntryJson))

/-- The decoded counterpart of a segment list: same observable content,
fresh ids drawn from `idOf` starting at index `n`. -/
def withFreshIds (idOf : ℕ → String) : ℕ → List LoopSegment → List LoopSegment
  | _, [] => []
  | n, s :: ss =>
    { id := idOf n, label := s.label, start := s.start, stop := s.stop } ::
      withFreshIds idOf (n + 1) ss

/-! ## Timestamp codec (`src/lib/segments.ts` lines 180-245) -/

/-- Embedding of `formatTimestampInput`: editable `mm:ss[.ff]` text for a
numeric value (`none` plays `null`; NaN and non-finite floats have no
rational counterpart, so the corresponding early return is vacuous here).
`Math.floor` is the integer floor, `Math.round` is floor of `x + 1/2`, and
`x % 60` on the nonnegative values reaching it is `x - 60⌊x/60⌋`. -/
def formatTimestampInput : Option ℚ → String
  | none => ""
  | some value =>
    let clamped : ℚ := max 0 (roundTwo value)
    let minutes0 : ℤ := ⌊clamped / 60⌋
    let seconds0 : ℚ := roundTwo (clamped - minutes0 * 60)
    let minutes : ℤ := if seconds0 ≥ 60 then minutes0 + ⌊seconds0 / 60⌋ else minutes0
    let seconds : ℚ :=
      if seconds0 ≥ 60 then roundTwo (seconds0 - 60 * ⌊seconds0 / 60⌋) else seconds0
    let minuteString := padTwo (decString minutes.toNat)
    let secondsInteger : ℤ := ⌊seconds⌋
    let fractional : ℚ := roundTwo (seconds - secondsInteger)
    let intString := padTwo (decString secondsInteger.toNat)
    let secondsString :=
      if fractional > 0 then
        intString ++ '.' :: padTwo (decString (⌊fractional * 100 + 1 / 2⌋).toNat)
      else intString
    ⟨minuteString ++ ':' :: secondsString⟩

/-- Embedding of the accumulation loop of `parseTimestampInput` over the
non-rightmost fields, taken right to left with the current multiplier: an
empty field or a field failing the `/^\d+$/` check aborts with `none`. -/
def accumRestParts : List (List Char) → ℚ → Option ℚ
  | [], _ => some 0
  | p :: ps, mult =>
    if p.isEmpty then none
    else if allDigits p then
      match accumRestParts ps (mult * 60) with
      | none => none
      | some t => some (t + (digitsVal p : ℚ) * mult)
    else none

/-- Embedding of `parseTimestampInput` (`segments.ts` lines 207-245):
trim; empty gives `none`; without a colon, plain `Number(...)` parsing with
a NaN check and a clamp to `≥ 0` (note: no rounding on this branch); with
colons, split into fields, rightmost parsed as a decimal number, the rest
as digit runs scaled by growing powers of 60, and the total clamped to
`≥ 0` and rounded to two decimals. -/
def parseTimestampInput (s : String) : Option ℚ :=
  let trimmed := jsTrim s.data
  if trimmed.isEmpty then none
  else if !(trimmed.contains ':') then
    match jsNumber trimmed with
    | none => none
    | some n => some (max 0 n)
  else
    match (splitOnCh ':' trimmed).reverse with
    | [] => none
    | last :: restRev =>
      if last.isEmpty then none
      else
        match jsNumber last with
        | none => none
        | some v =>
          match accumRestParts restRev 60 with
          | none => none
          | some t => some (max 0 (roundTwo (v + t)))

/-! ## URL model (`new URL`, `URLSearchParams`) -/

/-- Characters allowed in a URL scheme after the leading letter. -/
def isSchemeCh (c : Char) : Bool :=
  c.isAlpha || c.isDigit || c = '+' || c = '-' || c = '.'

/-- Hex digit test. -/
def isHexCh (c : Char) : Bool :=
  isDigitCh c || ('A' ≤ c && c ≤ 'F') || ('a' ≤ c && c ≤ 'f')

/-- Value of a hex digit. -/
def hexVal (c : Char) : ℕ :=
  if isDigitCh c then digitVal c
  else if 'a' ≤ c then c.toNat - 87
  else c.toNat - 55

/-- Uppercase hex digit for a value below sixteen. -/
def hexCh (n : ℕ) : Char :=
  if n < 10 then digitCh n else Char.ofNat (55 + n)

/-- Percent/plus decoding as performed by `URLSearchParams` on keys and
values.  A decoded byte is mapped directly to the character with that code
point: faithful for ASCII, which is all the theorems exercise (full UTF-8
recombination is not modelled). -/
def formDecode : List Char → List Char
  | [] => []
  | '+' :: rest => ' ' :: formDecode rest
  | '%' :: h1 :: h2 :: rest2 =>
    if isHexCh h1 && isHexCh h2 then
      Char.ofNat (16 * hexVal h1 + hexVal h2) :: formDecode rest2
    else '%' :: formDecode (h1 :: h2 :: rest2)
  | c :: rest => c :: formDecode rest

/-- UTF-8 bytes of a character (standard four-range encoding). -/
def utf8Bytes (c : Char) : List ℕ :=
  let n := c.toNat
  if n < 128 then [n]
  else if n < 2048 then [192 + n / 64, 128 + n % 64]
  else if n < 65536 then [224 + n / 4096, 128 + n / 64 % 64, 128 + n % 64]
  else [240 + n / 262144, 128 + n / 4096 % 64, 128 + n / 64 % 64, 128 + n % 64]

/-- Characters `URLSearchParams.toString` leaves unescaped
(`application/x-www-form-urlencoded` safe set). -/
def isFormSafe (c : Char) : Bool :=
  c.isAlphanum || c = '*' || c = '-' || c = '.' || c = '_'

/-- Form-encoding of one character: space to `+`, safe characters kept,
everything else percent-encoded bytewise. -/
def formEncodeChar (c : Char) : List Char :=
  if c = ' ' then ['+']
  else if isFormSafe c then [c]
  else (utf8Bytes c).flatMap (fun b => ['%', hexCh (b / 16), hexCh (b % 16)])

/-- Form-encoding of a character list. -/
def formEncode (l : List Char) : List Char :=
  l.flatMap formEncodeChar

/-- Decoded key/value pairs of a query text, as `URLSearchParams` reads it:
split on `&`, ignore empty fields, split each field at the first `=`. -/
def queryPairs (l : List Char) : List (List Char × List Char) :=
  (splitOnCh '&' l).filterMap (fun p =>
    if p.isEmpty then none
    else some (formDecode (p.takeWhile (fun c => c ≠ '=')),
               formDecode ((p.dropWhile (fun c => c ≠ '=')).drop 1)))

/-- Model of `searchParams.get(key)`: the first value stored under `key`. -/
def queryGet (l : List Char) (key : List Char) : Option (List Char) :=
  ((queryPairs l).find? (fun p => p.1 = key)).map (fun p => p.2)

/-- Model of `URLSearchParams.toString()` on an ordered pair list:
`key=value` fields joined by `&`, both sides form-encoded. -/
def queryToString : List (List Char × List Char) → List Char
  | [] => []
  | [p] => formEncode p.1 ++ '=' :: formEncode p.2
  | p :: rest => formEncode p.1 ++ '=' :: formEncode p.2 ++ '&' :: queryToString rest

/-- The components of a parsed URL that the sources consume. -/
structure UrlParts where
  hostname : List Char
  pathname : List Char
  search : List Char

/-- Model of the `new URL(text)` constructor, restricted to what the
extractor consumes: scheme validation, an optional `//authority` part
(user-info and port stripped, host lowercased, empty host rejected), the
path up to `?` or `#`, and the query text up to `#`.  `none` models the
constructor throwing. -/
def parseUrl (l : List Char) : Option UrlParts :=
  let scheme := l.takeWhile (fun c => c ≠ ':')
  let rest := l.dropWhile (fun c => c ≠ ':')
  match rest with
  | ':' :: afterColon =>
    if scheme.isEmpty || !(scheme.headD ' ').isAlpha || !scheme.all isSchemeCh then none
    else
      match afterColon with
      | '/' :: '/' :: afterSlashes =>
        let authority := afterSlashes.takeWhile (fun c => c ≠ '/' && c ≠ '?' && c ≠ '#')
        let afterAuth := afterSlashes.dropWhile (fun c => c ≠ '/' && c ≠ '?' && c ≠ '#')
        let hostPort := (splitOnCh '@' authority).getLastD []
        let host := (hostPort.takeWhile (fun c => c ≠ ':')).map Char.toLower
        if host.isEmpty then none
        else
          let pathname := afterAuth.takeWhile (fun c => c ≠ '?' && c ≠ '#')
          let afterPath := afterAuth.dropWhile (fun c => c ≠ '?' && c ≠ '#')
          let search :=
            match afterPath with
            | '?' :: q => q.takeWhile (fun c => c ≠ '#')
            | _ => []
          some { hostname := host, pathname := pathname, search := search }
      | _ =>
        let pathname := afterColon.takeWhile (fun c => c ≠ '?' && c ≠ '#')
        let afterPath := afterColon.dropWhile (fun c => c ≠ '?' && c ≠ '#')
        let search :=
          match afterPath with
          | '?' :: q => q.takeWhile (fun c => c ≠ '#')
          | _ => []
        some { hostname := [], pathname := pathname, search := search }
  | _ => none

/-! ## Identifier extractor (`src/lib/youtube.ts`, revision with
`normalizeYouTubeId`) -/

/-- Character class of the `/^[a-zA-Z0-9_-]{11}$/` pattern. -/
def isIdCh (c : Char) : Bool :=
  c.isAlphanum || c = '_' || c = '-'

/-- The full 11-character identifier pattern (`YOUTUBE_ID_PATTERN`). -/
def isYouTubeId (l : List Char) : Bool :=
  l.length = 11 && l.all isIdCh

/-- Embedding of `normalizeYouTubeId` (`youtube.ts`): reject a missing or
empty candidate, trim, and keep it only when it matches the pattern. -/
def normalizeYouTubeId (v : Option (List Char)) : Option (List Char) :=
  match v with
  | none => none
  | some value =>
    if value.isEmpty then none
    else
      let trimmed := jsTrim value
      if isYouTubeId trimmed then some trimmed else none

/-- Model of `url.hostname.replace(/^www\./, "")`. -/
def stripWww (h : List Char) : List Char :=
  if h.take 4 = "www.".data then h.drop 4 else h

/-- Model of `url.pathname.split("/").filter(Boolean)`. -/
def pathSegs (p : List Char) : List (List Char) :=
  (splitOnCh '/' p).filter (fun s => !s.isEmpty)

/-- Embedding of `extractYouTubeId` (`youtube.ts`, the revision calling
`normalizeYouTubeId`): trim; empty input fails; an input matching the bare
identifier pattern is returned directly; otherwise the input must parse as
a URL and the identifier is drawn from the host-specific location, always
passing through `normalizeYouTubeId`. -/
def extractYouTubeId (input : String) : Option String :=
  let trimmed := jsTrim input.data
  if trimmed.isEmpty then none
  else
    match normalizeYouTubeId (some trimmed) with
    | some direct => some ⟨direct⟩
    | none =>
      match parseUrl trimmed with
      | none => none
      | some url =>
        let host := stripWww url.hostname
        if host = "youtu.be".data then
          (normalizeYouTubeId (pathSegs url.pathname).head?).map (fun l => ⟨l⟩)
        else if host = "youtube.com".data || host = "m.youtube.com".data then
          match normalizeYouTubeId (queryGet url.search "v".data) with
          | some idFromQuery => some ⟨idFromQuery⟩
          | none =>
            let segments := pathSegs url.pathname
            match segments.findIdx? (fun s => s = "embed".data) with
            | some i => (normalizeYouTubeId segments[i + 1]?).map (fun l => ⟨l⟩)
            | none => none
        else if host = "youtube-nocookie.com".data then
          let segments := pathSegs url.pathname
          match segments.findIdx? (fun s => s = "embed".data) with
          | some i => (normalizeYouTubeId segments[i + 1]?).map (fun l => ⟨l⟩)
          | none => none
        else none

/-! ## Link builder (`src/lib/segments.ts` lines 100-117) -/

/-- JSON string-literal escaping (quote and backslash; the control-character
escapes never arise in the theorems below). -/
def escJsonCh (c : Char) : List Char :=
  if c = '"' || c = '\\' then ['\\', c] else [c]

/-- Text of `JSON.stringify` on a number produced by `roundTwo`: an exact
multiple of one hundredth, printed without trailing fractional zeros. -/
def renderHundredths (q : ℚ) : List Char :=
  let n : ℤ := ⌊q * 100⌋
  let m := n.natAbs
  let f := m % 100
  let fracPart : List Char :=
    if f = 0 then []
    else if f % 10 = 0 then ['.', digitCh (f / 10)]
    else '.' :: padTwo (decString f)
  (if n < 0 then ['-'] else []) ++ decString (m / 100) ++ fracPart

/-- Text of `JSON.stringify` on the serializable payload of
`serializeSegments`: the array of `label`/`start`/`end` objects, with the
braces written by code point. -/
def renderSegEntry (s : LoopSegment) : List Char :=
  Char.ofNat 123 ::
    ('"' :: "label".data ++ '"' :: ':' :: '"' :: (s.label.data.flatMap escJsonCh) ++ '"' ::
     ',' :: '"' :: "start".data ++ '"' :: ':' :: renderHundredths (roundTwo s.start) ++
     ',' :: '"' :: "end".data ++ '"' :: ':' :: renderHundredths (roundTwo s.stop) ++
     [Char.ofNat 125])

/-- Embedding of `serializeSegments` at the text level: `JSON.stringify`
applied to the payload of `serializeSegmentsJson`. -/
def serializeSegments (segments : List LoopSegment) : Option (List Char) :=
  if segments.length = 0 then none
  else some ('[' :: List.intercalate [','] (segments.map renderSegEntry) ++ [']'])

/-- Embedding of `buildVideoLink` (`segments.ts` lines 100-107): the
canonical watch URL with `v` first and, for a non-empty segment list, the
serialized `segments` parameter appended. -/
def buildVideoLink (videoId : String) (segments : List LoopSegment) : String :=
  let pairs : List (List Char × List Char) :=
    match serializeSegments segments with
    | some s => [("v".data, videoId.data), ("segments".data, s)]
    | none => [("v".data, videoId.data)]
  ⟨"https://www.youtube.com/watch?".data ++ queryToString pairs⟩

/-- Embedding of `extractSegmentsFromInput` (`segments.ts` lines 109-117):
parse the pasted text as a URL (failure recovers to the empty list), read
its `segments` parameter and decode it. -/
def extractSegmentsFromInput (jsonParse : String → Option Json)
    (idOf : ℕ → String) (value : String) : List LoopSegment :=
  match parseUrl value.data with
  | none => []
  | some url =>
    parseSegmentsParam jsonParse idOf
      ((queryGet url.search "segments".data).map (fun l => (⟨l⟩ : String)))

/-! ## Application state controller (`useLooperState`) -/

/-- The mutable state owned by `useLooperState`, one field per `useState`
hook (the memoized `selectedSegment` and `loopRange` are derived views,
not state). -/
structure LooperState where
  inputValue : String
  videoId : Option String
  inputError : Option String
  loopSegments : List LoopSegment
  selectedSegmentId : Option String
  currentTime : ℚ
  duration : ℚ
  isPlaying : Bool
  loopingEnabled : Bool
  playbackRate : ℚ
  draftLabel : String
  draftStart : Option ℚ
  draftEnd : Option ℚ
  draftStartInput : String
  draftEndInput : String
  isInputDirty : Bool
  deriving DecidableEq

/-- Embedding of the `canAddSegment` guard (`use-looper-state` line 57):
both draft bounds present and at least 0.2 seconds apart. -/
def canAddSegment (st : LooperState) : Bool :=
  match st.draftStart, st.draftEnd with
  | some a, some b => decide (b - a ≥ 0.2)
  | _, _ => false

/-- Embedding of `resetDraft`. -/
def resetDraft (st : LooperState) : LooperState :=
  { st with draftStart := none, draftEnd := none, draftLabel := "",
            draftStartInput := "", draftEndInput := "" }

/-- Embedding of `handleSubmit` (`use-looper-state` lines 113-136); the
`jsonParse` oracle stands for `JSON.parse` and `idOf` for the fresh-id
source used while decoding segments from the pasted link. -/
def handleSubmit (jsonParse : String → Option Json) (idOf : ℕ → String)
    (st : LooperState) : LooperState :=
  match extractYouTubeId st.inputValue with
  | none => { st with inputError := some "Please enter a valid YouTube URL or ID." }
  | some candidateId =>
    let parsedSegments := extractSegmentsFromInput jsonParse idOf st.inputValue
    resetDraft { st with
      inputError := none,
      videoId := some candidateId,
      loopSegments := parsedSegments,
      selectedSegmentId := (parsedSegments.head?).map (fun s => s.id),
      currentTime := 0,
      duration := 0,
      isPlaying := false,
      isInputDirty := false }

/-- Embedding of `handleAddSegment` (`use-looper-state` lines 248-268),
with the fresh id passed explicitly. -/
def handleAddSegment (freshId : String) (st : LooperState) : LooperState :=
  if !canAddSegment st then st
  else
    let boundedStart :=
      if st.duration > 0 then min (max 0 (st.draftStart.getD 0)) st.duration
      else st.draftStart.getD 0
    let boundedEnd :=
      if st.duration > 0 then min (max 0 (st.draftEnd.getD 0)) st.duration
      else st.draftEnd.getD 0
    let newSegment : LoopSegment :=
      { id := freshId,
        label := if strTrim st.draftLabel = "" then defaultLabel st.loopSegments.length
                 else strTrim st.draftLabel,
        start := min boundedStart boundedEnd,
        stop := max boundedStart boundedEnd }
    resetDraft { st with
      loopSegments := stableSortLe byStart (st.loopSegments ++ [newSegment]),
      selectedSegmentId := some freshId }

/-- Embedding of `handleRemoveSegment` (`use-looper-state` lines 281-284). -/
def handleRemoveSegment (targetId : String) (st : LooperState) : LooperState :=
  { st with
    loopSegments := st.loopSegments.filter (fun s => s.id ≠ targetId),
    selectedSegmentId :=
      if st.selectedSegmentId = some targetId then none else st.selectedSegmentId }

/-- Embedding of `handleClearSegments` (`use-looper-state` lines 286-289). -/
def handleClearSegments (st : LooperState) : LooperState :=
  { st with loopSegments := [], selectedSegmentId := none }

/-! ## Playback synchronizer poll tick (`youtube-player.tsx`) -/

/-- `LOOP_THRESHOLD` (`youtube-player.tsx` line 38). -/
def LOOP_THRESHOLD : ℚ := 0.15

/-- Commands the poll callback can issue against the live player. -/
inductive PlayerCmd where
  | timeUpdate : ℚ → ℚ → PlayerCmd
  | seekTo : ℚ → Bool → PlayerCmd
  deriving DecidableEq

/-- Inputs of one poll tick: the component props `isLooping` and
`loopRange` (from which `loopStart`/`loopEnd` are projected, `null` when
absent) and the values read from the player. -/
structure TickInput where
  isLooping : Bool
  loopRange : Option (ℚ × ℚ)
  currentTime : ℚ
  duration : ℚ

/-- Embedding of the poll interval callback (`youtube-player.tsx` lines
182-197): report the polled time, then, when looping with a well-formed
range and the play head at or past `end − LOOP_THRESHOLD`, seek back to
the range start with seek-ahead allowed. -/
def pollTick (i : TickInput) : List PlayerCmd :=
  let loopStart : Option ℚ := i.loopRange.map (fun r => r.1)
  let loopEnd : Option ℚ := i.loopRange.map (fun r => r.2)
  PlayerCmd.timeUpdate i.currentTime i.duration ::
    (match loopStart, loopEnd with
     | some s, some e =>
       if i.isLooping = true ∧ e > s then
         if i.currentTime ≥ e - LOOP_THRESHOLD then [PlayerCmd.seekTo s true] else []
       else []
     | _, _ => [])

/-- A concrete controller state with a committable draft, used by witness
instantiations. -/
def looperStateSeedC7 : LooperState :=
  { inputValue := "", videoId := none, inputError := none,
    loopSegments := [], selectedSegmentId := none, currentTime := 0,
    duration := 0, isPlaying := false, loopingEnabled := true,
    playbackRate := 1, draftLabel := "", draftStart := some 1,
    draftEnd := some 2, draftStartInput := "01:00", draftEndInput := "02:00",
    isInputDirty := false }

/-! ## Lemmas about the stable sort -/

theorem insertLe_of_all (le : LoopSegment → LoopSegment → Bool) (x : LoopSegment) :
    ∀ acc : List LoopSegment, (∀ y ∈ acc, le y x = true) →
      insertLe le x acc = acc ++ [x]
  | [], _ => rfl
  | y :: ys, h => by
    have hy : le y x = true := h y (List.mem_cons_self y ys)
    simp only [insertLe, hy, if_true, List.cons_append]
    exact congrArg (y :: ·) (insertLe_of_all le x ys (fun z hz => h z (List.mem_cons_of_mem y hz)))

theorem foldl_insertLe_of_sorted (le : LoopSegment → LoopSegment → Bool) :
    ∀ (l acc : List LoopSegment),
      (acc ++ l).Pairwise (fun a b => le a b = true) →
      l.foldl (fun acc x => insertLe le x acc) acc = acc ++ l
  | [], acc, _ => by simp
  | x :: xs, acc, h => by
    have hall : ∀ y ∈ acc, le y x = true := by
      intro y hy
      have := (List.pairwise_append.mp h).2.2 y hy x (List.mem_cons_self x xs)
      exact this
    have hstep : insertLe le x acc = acc ++ [x] := insertLe_of_all le x acc hall
    have hrearr : (acc ++ [x]) ++ xs = acc ++ x :: xs := by simp
    have h2 : ((acc ++ [x]) ++ xs).Pairwise (fun a b => le a b = true) := by
      rw [hrearr]; exact h
    calc (x :: xs).foldl (fun acc x => insertLe le x acc) acc
        = xs.foldl (fun acc x => insertLe le x acc) (acc ++ [x]) := by
          simp [List.foldl_cons, hstep]
      _ = (acc ++ [x]) ++ xs := foldl_insertLe_of_sorted le xs (acc ++ [x]) h2
      _ = acc ++ x :: xs := hrearr

/-- A list already sorted for `le` is fixed by the stable sort. -/
theorem stableSortLe_of_sorted (le : LoopSegment → LoopSegment → Bool)
    (l : List LoopSegment) (h : l.Pairwise (fun a b => le a b = true)) :
    stableSortLe le l = l := by
  have := foldl_insertLe_of_sorted le l [] (by simpa using h)
  simpa [stableSortLe] using this

theorem insertLe_perm (le : LoopSegment → LoopSegment → Bool) (x : LoopSegment) :
    ∀ acc : List LoopSegment, (insertLe le x acc).Perm (acc ++ [x])
  | [] => List.Perm.refl _
  | y :: ys => by
    simp only [insertLe]
    by_cases hy : le y x = true
    · simp only [hy, if_true, List.cons_append]
      exact (insertLe_perm le x ys).cons y
    · simp only [hy, if_false]
      have h1 : (x :: y :: ys).Perm (y :: x :: ys) := List.Perm.swap y x ys
      have h2 : (x :: ys).Perm (ys ++ [x]) := (List.perm_append_singleton x ys).symm
      exact h1.trans ((h2.cons y).trans (by simp))

theorem mem_insertLe (le : LoopSegment → LoopSegment → Bool) (x z : LoopSegment) :
    ∀ acc : List LoopSegment, z ∈ insertLe le x acc ↔ z = x ∨ z ∈ acc := by
  intro acc
  constructor
  · intro hz
    have := (insertLe_perm le x acc).mem_iff.mp hz
    simpa [or_comm] using this
  · intro hz
    apply (insertLe_perm le x acc).mem_iff.mpr
    simpa [or_comm] using hz

theorem insertLe_pairwise (le : LoopSegment → LoopSegment → Bool)
    (htot : ∀ a b, le a b = true ∨ le b a = true)
    (htrans : ∀ a b c, le a b = true → le b c = true → le a c = true)
    (x : LoopSegment) :
    ∀ acc : List LoopSegment, acc.Pairwise (fun a b => le a b = true) →
      (insertLe le x acc).Pairwise (fun a b => le a b = true)
  | [], _ => by simp [insertLe]
  | y :: ys, h => by
    rw [List.pairwise_cons] at h
    by_cases hy : le y x = true
    · simp only [insertLe, hy, if_true]
      rw [List.pairwise_cons]
      refine ⟨?_, insertLe_pairwise le htot htrans x ys h.2⟩
      intro z hz
      rcases (mem_insertLe le x z ys).mp hz with hzx | hzy
      · exact hzx ▸ hy
      · exact h.1 z hzy
    · have hxy : le x y = true := (htot x y).resolve_right (fun hc => hy hc)
      have hy2 : le y x = false := eq_false_of_ne_true hy
      simp only [insertLe, hy2, Bool.false_eq_true, if_false]
      rw [List.pairwise_cons]
      refine ⟨?_, List.pairwise_cons.mpr h⟩
      intro z hz
      rcases List.mem_cons.mp hz with hzy | hzys
      · exact hzy ▸ hxy
      · exact htrans x y z hxy (h.1 z hzys)

theorem foldl_insertLe_pairwise (le : LoopSegment → LoopSegment → Bool)
    (htot : ∀ a b, le a b = true ∨ le b a = true)
    (htrans : ∀ a b c, le a b = true → le b c = true → le a c = true) :
    ∀ (l acc : List LoopSegment), acc.Pairwise (fun a b => le a b = true) →
      (l.foldl (fun acc x => insertLe le x acc) acc).Pairwise (fun a b => le a b = true)
  | [], _, h => h
  | x :: xs, acc, h =>
    foldl_insertLe_pairwise le htot htrans xs (insertLe le x acc)
      (insertLe_pairwise le htot htrans x acc h)

/-- The stable sort really sorts, for a total transitive comparison. -/
theorem stableSortLe_pairwise (le : LoopSegment → LoopSegment → Bool)
    (htot : ∀ a b, le a b = true ∨ le b a = true)
    (htrans : ∀ a b c, le a b = true → le b c = true → le a c = true)
    (l : List LoopSegment) :
    (stableSortLe le l).Pairwise (fun a b => le a b = true) :=
  foldl_insertLe_pairwise le htot htrans l [] List.Pairwise.nil

theorem foldl_insertLe_perm (le : LoopSegment → LoopSegment → Bool) :
    ∀ (l acc : List LoopSegment),
      (l.foldl (fun acc x => insertLe le x acc) acc).Perm (acc ++ l)
  | [], acc => by simp
  | x :: xs, acc => by
    have h1 := foldl_insertLe_perm le xs (insertLe le x acc)
    have h2 : (insertLe le x acc ++ xs).Perm (acc ++ x :: xs) := by
      have := (insertLe_perm le x acc).append_right xs
      refine this.trans ?_
      simp
    simpa [List.foldl_cons] using h1.trans h2

/-- The stable sort permutes its input. -/
theorem stableSortLe_perm (le : LoopSegment → LoopSegment → Bool)
    (l : List LoopSegment) : (stableSortLe le l).Perm l := by
  simpa [stableSortLe] using foldl_insertLe_perm le l []

theorem byStart_total : ∀ a b : LoopSegment, byStart a b = true ∨ byStart b a = true := by
  intro a b
  simp only [byStart, decide_eq_true_eq]
  exact le_total a.start b.start

theorem byStart_trans : ∀ a b c : LoopSegment,
    byStart a b = true → byStart b c = true → byStart a c = true := by
  intro a b c hab hbc
  simp only [byStart, decide_eq_true_eq] at *
  exact le_trans hab hbc

/-! ## Claim C6: decode totality and recovery -/

/-- C6: `parseSegmentsParam` is a total function of its input (never
throws, by construction of the embedding), and a missing value, the empty
text, a text on which `JSON.parse` fails, and a text whose parsed top-level
value is not an array all decode to the empty segment list. -/
theorem parseSegmentsParam_recovers (jsonParse : String → Option Json)
    (idOf : ℕ → String) :
    parseSegmentsParam jsonParse idOf none = [] ∧
    parseSegmentsParam jsonParse idOf (some "") = [] ∧
    (∀ s : String, jsonParse s = none → parseSegmentsParam jsonParse idOf (some s) = []) ∧
    (∀ (s : String) (j : Json), jsonParse s = some j →
      (∀ xs : List Json, j ≠ Json.arr xs) →
      parseSegmentsParam jsonParse idOf (some s) = []) := by
  refine ⟨rfl, rfl, ?_, ?_⟩
  · intro s hp
    by_cases hs : s = ""
    · simp [parseSegmentsParam, hs]
    · simp [parseSegmentsParam, hs, hp]
  · intro s j hp hj
    by_cases hs : s = ""
    · simp [parseSegmentsParam, hs]
    · simp only [parseSegmentsParam, hs, if_false, hp]
      cases j with
      | arr xs => exact absurd rfl (hj xs)
      | null => rfl
      | bool b => rfl
      | num q => rfl
      | str t => rfl
      | obj fields => rfl

/-- Witness for C6 at a concrete garbage input: a text parsing to the
non-array JSON value `0` decodes to the empty list. -/
theorem parseSegmentsParam_recovers_witness :
    parseSegmentsParam (fun _ => some (Json.num 0)) (fun _ => "") (some "0") = [] :=
  (parseSegmentsParam_recovers (fun _ => some (Json.num 0)) (fun _ => "")).2.2.2
    "0" (Json.num 0) rfl (fun _ h => Json.noConfusion h)

/-! ## Claim C5: loop enforcement condition -/

/-- C5: on a poll tick a seek command is issued exactly when looping is
enabled, an active range with `end > start` exists, and the polled time is
at or past `end − 0.15`; the seek targets the range start with seek-ahead
allowed.  In particular a tick at `end − 0.1` while looping over a range
of length at least `0.2` seeks to the start. -/
theorem pollTick_seek_characterization (i : TickInput) :
    (∀ x b, PlayerCmd.seekTo x b ∈ pollTick i ↔
      (i.isLooping = true ∧ b = true ∧
        ∃ e, i.loopRange = some (x, e) ∧ e > x ∧
          i.currentTime ≥ e - LOOP_THRESHOLD)) ∧
    (∀ s e, i.loopRange = some (s, e) → i.isLooping = true →
      e - s ≥ 0.2 → i.currentTime = e - 0.1 →
      PlayerCmd.seekTo s true ∈ pollTick i) := by
  obtain ⟨lp, rng, t, d⟩ := i
  constructor
  · intro x b
    cases rng with
    | none =>
      constructor
      · intro hmem
        rcases List.mem_cons.mp hmem with hc | hc
        · exact absurd hc (by intro h; exact PlayerCmd.noConfusion h)
        · exact absurd hc (by intro h; exact (List.not_mem_nil _) h)
      · rintro ⟨_, _, e, he, _⟩
        exact Option.noConfusion he
    | some r =>
      obtain ⟨s0, e0⟩ := r
      by_cases hc1 : (lp = true ∧ e0 > s0)
      · by_cases hc2 : t ≥ e0 - LOOP_THRESHOLD
        · have hpt : pollTick ⟨lp, some (s0, e0), t, d⟩
              = [PlayerCmd.timeUpdate t d, PlayerCmd.seekTo s0 true] := by
            simp only [pollTick, Option.map_some']
            rw [if_pos hc1, if_pos hc2]
          rw [hpt]
          constructor
          · intro hmem
            rcases List.mem_cons.mp hmem with hc | hc
            · exact absurd hc (by intro h; exact PlayerCmd.noConfusion h)
            · rcases List.mem_singleton.mp hc with h
              obtain ⟨rfl, rfl⟩ : x = s0 ∧ b = true := by
                refine ⟨?_, ?_⟩ <;> cases h <;> rfl
              exact ⟨hc1.1, rfl, e0, rfl, hc1.2, hc2⟩
          · rintro ⟨_, rfl, e, he, _, _⟩
            obtain ⟨rfl, rfl⟩ : x = s0 ∧ e = e0 := by
              refine ⟨?_, ?_⟩ <;> cases he <;> rfl
            exact List.mem_cons_of_mem _ (List.mem_singleton.mpr rfl)
        · have hpt : pollTick ⟨lp, some (s0, e0), t, d⟩
              = [PlayerCmd.timeUpdate t d] := by
            simp only [pollTick, Option.map_some']
            rw [if_pos hc1, if_neg hc2]
          rw [hpt]
          constructor
          · intro hmem
            rcases List.mem_cons.mp hmem with hc | hc
            · exact absurd hc (by intro h; exact PlayerCmd.noConfusion h)
            · exact absurd hc (by intro h; exact (List.not_mem_nil _) h)
          · rintro ⟨_, _, e, he, _, hge⟩
            obtain ⟨rfl, rfl⟩ : x = s0 ∧ e = e0 := by
              refine ⟨?_, ?_⟩ <;> cases he <;> rfl
            exact absurd hge hc2
      · have hpt : pollTick ⟨lp, some (s0, e0), t, d⟩
            = [PlayerCmd.timeUpdate t d] := by
          simp only [pollTick, Option.map_some']
          rw [if_neg hc1]
        rw [hpt]
        constructor
        · intro hmem
          rcases List.mem_cons.mp hmem with hc | hc
          · exact absurd hc (by intro h; exact PlayerCmd.noConfusion h)
          · exact absurd hc (by intro h; exact (List.not_mem_nil _) h)
        · rintro ⟨hl, _, e, he, hgt, _⟩
          obtain ⟨rfl, rfl⟩ : x = s0 ∧ e = e0 := by
            refine ⟨?_, ?_⟩ <;> cases he <;> rfl
          exact absurd ⟨hl, hgt⟩ hc1
  · intro s e hr hl hlen ht
    subst hr
    have hc1 : (lp = true ∧ e > s) := ⟨hl, by linarith⟩
    have ht2 : t = e - 0.1 := ht
    have hc2 : t ≥ e - LOOP_THRESHOLD := by
      rw [ht2]; unfold LOOP_THRESHOLD; norm_num
      linarith
    have hpt : pollTick ⟨lp, some (s, e), t, d⟩
        = [PlayerCmd.timeUpdate t d, PlayerCmd.seekTo s true] := by
      simp only [pollTick, Option.map_some']
      rw [if_pos hc1, if_pos hc2]
    rw [hpt]
    exact List.mem_cons_of_mem _ (List.mem_singleton.mpr rfl)

/-- Witness for C5: looping over the range `[1, 2]` with the play head at
`1.9 = 2 − 0.1` issues the seek back to `1`. -/
theorem pollTick_seek_witness :
    PlayerCmd.seekTo 1 true ∈ pollTick ⟨true, some (1, 2), 1.9, 10⟩ :=
  (pollTick_seek_characterization ⟨true, some (1, 2), 1.9, 10⟩).2 1 2 rfl rfl
    (by norm_num) (by norm_num)

/-! ## Claim C8: load-failure atomicity -/

/-- C8: when the identifier extractor rejects the input text,
`handleSubmit` only sets the validation error message; the video
identifier, segment list, selection, draft and playback state are all
left untouched. -/
theorem handleSubmit_failure_frame (jsonParse : String → Option Json)
    (idOf : ℕ → String) (st : LooperState)
    (h : extractYouTubeId st.inputValue = none) :
    handleSubmit jsonParse idOf st
      = { st with inputError := some "Please enter a valid YouTube URL or ID." } := by
  unfold handleSubmit
  rw [h]

/-- Witness for C8: submitting an empty input field reports the error and
changes nothing else. -/
theorem handleSubmit_failure_frame_witness :
    handleSubmit (fun _ => none) (fun _ => "")
        { inputValue := "", videoId := none, inputError := none,
          loopSegments := [], selectedSegmentId := none, currentTime := 0,
          duration := 0, isPlaying := false, loopingEnabled := true,
          playbackRate := 1, draftLabel := "", draftStart := none,
          draftEnd := none, draftStartInput := "", draftEndInput := "",
          isInputDirty := false }
      = { inputValue := "", videoId := none,
          inputError := some "Please enter a valid YouTube URL or ID.",
          loopSegments := [], selectedSegmentId := none, currentTime := 0,
          duration := 0, isPlaying := false, loopingEnabled := true,
          playbackRate := 1, draftLabel := "", draftStart := none,
          draftEnd := none, draftStartInput := "", draftEndInput := "",
          isInputDirty := false } :=
  handleSubmit_failure_frame (fun _ => none) (fun _ => "") _ (by decide)

/-! ## Claim C10: removal frame condition -/

/-- C10: `handleRemoveSegment` and `handleClearSegments` touch only the
segment list and the selection: the video identifier, input text and
error, dirty flag, draft fields and the playback state are unchanged; and
removing a segment other than the selected one keeps the selection. -/
theorem removal_frame (targetId : String) (st : LooperState) :
    ((handleRemoveSegment targetId st).inputValue = st.inputValue ∧
     (handleRemoveSegment targetId st).videoId = st.videoId ∧
     (handleRemoveSegment targetId st).inputError = st.inputError ∧
     (handleRemoveSegment targetId st).isInputDirty = st.isInputDirty ∧
     (handleRemoveSegment targetId st).draftLabel = st.draftLabel ∧
     (handleRemoveSegment targetId st).draftStart = st.draftStart ∧
     (handleRemoveSegment targetId st).draftEnd = st.draftEnd ∧
     (handleRemoveSegment targetId st).draftStartInput = st.draftStartInput ∧
     (handleRemoveSegment targetId st).draftEndInput = st.draftEndInput ∧
     (handleRemoveSegment targetId st).currentTime = st.currentTime ∧
     (handleRemoveSegment targetId st).duration = st.duration ∧
     (handleRemoveSegment targetId st).isPlaying = st.isPlaying ∧
     (handleRemoveSegment targetId st).playbackRate = st.playbackRate ∧
     (handleRemoveSegment targetId st).loopingEnabled = st.loopingEnabled) ∧
    (st.selectedSegmentId ≠ some targetId →
      (handleRemoveSegment targetId st).selectedSegmentId = st.selectedSegmentId) ∧
    ((handleClearSegments st).inputValue = st.inputValue ∧
     (handleClearSegments st).videoId = st.videoId ∧
     (handleClearSegments st).inputError = st.inputError ∧
     (handleClearSegments st).isInputDirty = st.isInputDirty ∧
     (handleClearSegments st).draftLabel = st.draftLabel ∧
     (handleClearSegments st).draftStart = st.draftStart ∧
     (handleClearSegments st).draftEnd = st.draftEnd ∧
     (handleClearSegments st).draftStartInput = st.draftStartInput ∧
     (handleClearSegments st).draftEndInput = st.draftEndInput ∧
     (handleClearSegments st).currentTime = st.currentTime ∧
     (handleClearSegments st).duration = st.duration ∧
     (handleClearSegments st).isPlaying = st.isPlaying ∧
     (handleClearSegments st).playbackRate = st.playbackRate ∧
     (handleClearSegments st).loopingEnabled = st.loopingEnabled) := by
  refine ⟨?_, ?_, ?_⟩
  · exact ⟨rfl, rfl, rfl, rfl, rfl, rfl, rfl, rfl, rfl, rfl, rfl, rfl, rfl, rfl⟩
  · intro hne
    simp only [handleRemoveSegment, if_neg hne]
  · exact ⟨rfl, rfl, rfl, rfl, rfl, rfl, rfl, rfl, rfl, rfl, rfl, rfl, rfl, rfl⟩

/-- Witness for C10: removing the id `"b"` while the selection is `"a"`
keeps the selection. -/
theorem removal_frame_witness :
    (handleRemoveSegment "b"
        { inputValue := "", videoId := none, inputError := none,
          loopSegments := [], selectedSegmentId := some "a", currentTime := 0,
          duration := 0, isPlaying := false, loopingEnabled := true,
          playbackRate := 1, draftLabel := "", draftStart := none,
          draftEnd := none, draftStartInput := "", draftEndInput := "",
          isInputDirty := false }).selectedSegmentId = some "a" :=
  (removal_frame "b" _).2.1 (by decide)

/-! ## Claim C2: closing validation in the identifier extractor -/

theorem normalizeYouTubeId_valid (v : Option (List Char)) (l : List Char)
    (h : normalizeYouTubeId v = some l) : isYouTubeId l = true := by
  unfold normalizeYouTubeId at h
  cases v with
  | none => exact Option.noConfusion h
  | some value =>
    by_cases he : value.isEmpty = true
    · simp [he] at h
    · simp only [he, Bool.false_eq_true, if_false] at h
      by_cases hp : isYouTubeId (jsTrim value) = true
      · rw [if_pos hp] at h
        cases h
        exact hp
      · rw [if_neg hp] at h
        exact Option.noConfusion h

/-- C2: every identifier the extractor returns — whether taken directly
from a bare-identifier input or extracted out of a supported URL shape —
matches the 11-character `[A-Za-z0-9_-]` pattern; on any other input the
extractor returns `none` (totality of the `Option` result). -/
theorem extractYouTubeId_validates (s idText : String)
    (h : extractYouTubeId s = some idText) : isYouTubeId idText.data = true := by
  simp only [extractYouTubeId] at h
  split at h
  next => exact Option.noConfusion h
  next =>
    split at h
    next direct heq =>
      cases h
      exact normalizeYouTubeId_valid _ _ heq
    next =>
      split at h
      next => exact Option.noConfusion h
      next url hurl =>
        split at h
        next h1 =>
          rcases Option.map_eq_some'.mp h with ⟨l, hl, rfl⟩
          exact normalizeYouTubeId_valid _ _ hl
        next h1 =>
          split at h
          next h2 =>
            split at h
            next idq heq =>
              cases h
              exact normalizeYouTubeId_valid _ _ heq
            next =>
              split at h
              next i hf =>
                rcases Option.map_eq_some'.mp h with ⟨l, hl, rfl⟩
                exact normalizeYouTubeId_valid _ _ hl
              next => exact Option.noConfusion h
          next h2 =>
            split at h
            next h3 =>
              split at h
              next i hf =>
                rcases Option.map_eq_some'.mp h with ⟨l, hl, rfl⟩
                exact normalizeYouTubeId_valid _ _ hl
              next => exact Option.noConfusion h
            next h3 => exact Option.noConfusion h

/-- Witness for C2: the id extracted from a short-link URL indeed matches
the pattern. -/
theorem extractYouTubeId_validates_witness :
    isYouTubeId (String.data "dQw4w9WgXcQ") = true :=
  extractYouTubeId_validates "https://youtu.be/dQw4w9WgXcQ" "dQw4w9WgXcQ"
    (by with_unfolding_all decide)

/-! ## Claim C4: the colon-free branch of the timestamp parser -/

/-- Counterexample to C4 as stated: on the colon-free input `"1.234"` the
parser returns the value `1.234` itself — it does not round to two decimal
places (the claimed result would be `1.23`). -/
theorem parseTimestampInput_nocolon_counterexample :
    parseTimestampInput "1.234" = some (617 / 500) ∧
    roundTwo (max 0 (617 / 500)) = 123 / 100 ∧
    (617 / 500 : ℚ) ≠ 123 / 100 := by
  refine ⟨by with_unfolding_all decide, by with_unfolding_all decide,
    by with_unfolding_all decide⟩

/-- C4 (amended): for every trimmed non-empty input containing no colon,
`parseTimestampInput` parses it as a plain decimal number, returns `none`
on parse failure (NaN), and otherwise returns the value clamped to `≥ 0` —
with no rounding applied on this branch. -/
theorem parseTimestampInput_nocolon (s : String)
    (h1 : (jsTrim s.data).isEmpty = false)
    (h2 : (jsTrim s.data).contains ':' = false) :
    parseTimestampInput s = (jsNumber (jsTrim s.data)).map (fun n => max 0 n) := by
  simp only [parseTimestampInput, h1, h2, Bool.false_eq_true, if_false,
    Bool.not_false, if_true]
  cases jsNumber (jsTrim s.data) with
  | none => rfl
  | some n => rfl

/-- Witness for the amended C4 at the input `"1.234"`. -/
theorem parseTimestampInput_nocolon_witness :
    parseTimestampInput "1.234"
      = (jsNumber (jsTrim "1.234".data)).map (fun n => max 0 n) :=
  parseTimestampInput_nocolon "1.234" (by decide) (by decide)

/-! ## Claim C7: minimum segment length guard on commit -/

/-- C7: `handleAddSegment` leaves the state untouched unless both draft
bounds are present and at least `0.2` apart; on commit the bounds are
clamped into `[0, duration]` when the duration is known, the label
defaults to `"Loop {count+1}"` when blank, the new segment is inserted
with the list re-sorted ascending by start (a permutation of the old list
plus the new segment, sorted), it becomes the selection, and the draft is
cleared. -/
theorem handleAddSegment_spec (freshId : String) (st : LooperState) :
    (canAddSegment st = false → handleAddSegment freshId st = st) ∧
    (∀ a b, st.draftStart = some a → st.draftEnd = some b → b - a ≥ 0.2 →
      ∃ seg : LoopSegment,
        seg.id = freshId ∧
        seg.label = (if strTrim st.draftLabel = ""
                     then defaultLabel st.loopSegments.length
                     else strTrim st.draftLabel) ∧
        seg.start = min (if st.duration > 0 then min (max 0 a) st.duration else a)
                        (if st.duration > 0 then min (max 0 b) st.duration else b) ∧
        seg.stop = max (if st.duration > 0 then min (max 0 a) st.duration else a)
                       (if st.duration > 0 then min (max 0 b) st.duration else b) ∧
        (st.duration > 0 → 0 ≤ seg.start ∧ seg.stop ≤ st.duration) ∧
        (handleAddSegment freshId st).loopSegments
          = stableSortLe byStart (st.loopSegments ++ [seg]) ∧
        ((handleAddSegment freshId st).loopSegments).Perm
          (st.loopSegments ++ [seg]) ∧
        ((handleAddSegment freshId st).loopSegments).Pairwise
          (fun x y => x.start ≤ y.start) ∧
        (handleAddSegment freshId st).selectedSegmentId = some freshId ∧
        (handleAddSegment freshId st).draftStart = none ∧
        (handleAddSegment freshId st).draftEnd = none ∧
        (handleAddSegment freshId st).draftLabel = "" ∧
        (handleAddSegment freshId st).draftStartInput = "" ∧
        (handleAddSegment freshId st).draftEndInput = "") := by
  constructor
  · intro hc
    simp [handleAddSegment, hc]
  · intro a b ha hb hlen
    have hc : canAddSegment st = true := by
      simp only [canAddSegment, ha, hb]
      exact decide_eq_true hlen
    have hred : handleAddSegment freshId st
        = resetDraft { st with
            loopSegments := stableSortLe byStart (st.loopSegments ++
              [{ id := freshId,
                 label := if strTrim st.draftLabel = ""
                          then defaultLabel st.loopSegments.length
                          else strTrim st.draftLabel,
                 start := min (if st.duration > 0 then min (max 0 a) st.duration else a)
                              (if st.duration > 0 then min (max 0 b) st.duration else b),
                 stop := max (if st.duration > 0 then min (max 0 a) st.duration else a)
                             (if st.duration > 0 then min (max 0 b) st.duration else b) }]),
            selectedSegmentId := some freshId } := by
      simp only [handleAddSegment, hc, Bool.not_true, Bool.false_eq_true, if_false,
        ha, hb, Option.getD_some]
    refine ⟨{ id := freshId,
              label := if strTrim st.draftLabel = ""
                       then defaultLabel st.loopSegments.length
                       else strTrim st.draftLabel,
              start := min (if st.duration > 0 then min (max 0 a) st.duration else a)
                           (if st.duration > 0 then min (max 0 b) st.duration else b),
              stop := max (if st.duration > 0 then min (max 0 a) st.duration else a)
                          (if st.duration > 0 then min (max 0 b) st.duration else b) },
      rfl, rfl, rfl, rfl, ?_, ?_, ?_, ?_, ?_, ?_, ?_, ?_, ?_, ?_⟩
    · intro hdur
      simp only [hdur, if_true]
      exact ⟨le_min (le_min (le_max_left 0 a) hdur.le)
               (le_min (le_max_left 0 b) hdur.le),
             max_le (min_le_right _ _) (min_le_right _ _)⟩
    · rw [hred]; rfl
    · rw [hred]
      exact stableSortLe_perm byStart _
    · rw [hred]
      exact (stableSortLe_pairwise byStart byStart_total byStart_trans _).imp
        (fun hxy => by simpa [byStart, decide_eq_true_eq] using hxy)
    · rw [hred]; rfl
    · rw [hred]; rfl
    · rw [hred]; rfl
    · rw [hred]; rfl
    · rw [hred]; rfl
    · rw [hred]; rfl

/-- Witness for C7: committing a draft `[1, 2]` with unknown duration
inserts the segment, selects it and clears the draft. -/
theorem handleAddSegment_spec_witness :
    ∃ seg : LoopSegment,
      seg.id = "new" ∧
      seg.label = (if strTrim "" = "" then defaultLabel 0 else strTrim "") ∧
      seg.start = min (if (0 : ℚ) > 0 then min (max 0 1) 0 else 1)
                      (if (0 : ℚ) > 0 then min (max 0 2) 0 else 2) ∧
      seg.stop = max (if (0 : ℚ) > 0 then min (max 0 1) 0 else 1)
                     (if (0 : ℚ) > 0 then min (max 0 2) 0 else 2) ∧
      ((0 : ℚ) > 0 → 0 ≤ seg.start ∧ seg.stop ≤ (0 : ℚ)) ∧
      (handleAddSegment "new" looperStateSeedC7).loopSegments
        = stableSortLe byStart (looperStateSeedC7.loopSegments ++ [seg]) ∧
      ((handleAddSegment "new" looperStateSeedC7).loopSegments).Perm
        (looperStateSeedC7.loopSegments ++ [seg]) ∧
      ((handleAddSegment "new" looperStateSeedC7).loopSegments).Pairwise
        (fun x y => x.start ≤ y.start) ∧
      (handleAddSegment "new" looperStateSeedC7).selectedSegmentId = some "new" ∧
      (handleAddSegment "new" looperStateSeedC7).draftStart = none ∧
      (handleAddSegment "new" looperStateSeedC7).draftEnd = none ∧
      (handleAddSegment "new" looperStateSeedC7).draftLabel = "" ∧
      (handleAddSegment "new" looperStateSeedC7).draftStartInput = "" ∧
      (handleAddSegment "new" looperStateSeedC7).draftEndInput = "" :=
  (handleAddSegment_spec "new" looperStateSeedC7).2 1 2 rfl rfl (by norm_num)

/-! ## Claim C1: segment codec round trip -/

theorem decodeSegmentEntry_serEntry (idOf : ℕ → String) (n : ℕ) (s : LoopSegment)
    (hlab : strTrim s.label = s.label) (hne : s.label ≠ "")
    (h0 : 0 ≤ s.start) (hle : s.start ≤ s.stop)
    (hr2s : roundTwo s.start = s.start) (hr2e : roundTwo s.stop = s.stop) :
    decodeSegmentEntry idOf n (serEntryJson s)
      = some { id := idOf n, label := s.label, start := s.start, stop := s.stop } := by
  have h0e : 0 ≤ s.stop := le_trans h0 hle
  have hfl : Json.getField (.obj [("label", .str s.label),
      ("start", .num (roundTwo s.start)), ("end", .num (roundTwo s.stop))]) "label"
      = some (.str s.label) := rfl
  have hfs : Json.getField (.obj [("label", .str s.label),
      ("start", .num (roundTwo s.start)), ("end", .num (roundTwo s.stop))]) "start"
      = some (.num (roundTwo s.start)) := rfl
  have hfe : Json.getField (.obj [("label", .str s.label),
      ("start", .num (roundTwo s.start)), ("end", .num (roundTwo s.stop))]) "end"
      = some (.num (roundTwo s.stop)) := rfl
  simp only [serEntryJson, decodeSegmentEntry, hfl, hfs, hfe]
  simp only [sanitizeTimestamp, jsCoerceNumber, hr2s, hr2e, hlab]
  rw [if_neg hne]
  simp only [max_eq_right h0, max_eq_right h0e]
  rw [min_eq_left hle, max_eq_right hle]

theorem decodeEntriesFrom_serialized (idOf : ℕ → String) :
    ∀ (L : List LoopSegment),
      (∀ s ∈ L, strTrim s.label = s.label ∧ s.label ≠ "" ∧ 0 ≤ s.start ∧
        s.start ≤ s.stop ∧ roundTwo s.start = s.start ∧ roundTwo s.stop = s.stop) →
      ∀ n, (decodeEntriesFrom idOf n (L.map serEntryJson)).reduceOption
        = withFreshIds idOf n L
  | [], _, _ => rfl
  | x :: xs, h, n => by
    obtain ⟨h1, h2, h3, h4, h5, h6⟩ := h x (List.mem_cons_self x xs)
    have hx := decodeSegmentEntry_serEntry idOf n x h1 h2 h3 h4 h5 h6
    have hxs := decodeEntriesFrom_serialized idOf xs
      (fun s hs => h s (List.mem_cons_of_mem x hs)) (n + 1)
    simp only [List.map_cons, decodeEntriesFrom, hx, List.reduceOption_cons_of_some,
      hxs, withFreshIds]

theorem withFreshIds_map_triple (idOf : ℕ → String) :
    ∀ (n : ℕ) (L : List LoopSegment),
      (withFreshIds idOf n L).map LoopSegment.triple = L.map LoopSegment.triple
  | _, [] => rfl
  | n, s :: ss => by
    simp only [withFreshIds, List.map_cons, withFreshIds_map_triple idOf (n + 1) ss]
    rfl

theorem mem_withFreshIds (idOf : ℕ → String) :
    ∀ (n : ℕ) (L : List LoopSegment) (y : LoopSegment),
      y ∈ withFreshIds idOf n L → ∃ s ∈ L, y.start = s.start
  | _, [], y, hy => absurd hy (List.not_mem_nil y)
  | n, s :: ss, y, hy => by
    rcases List.mem_cons.mp hy with hc | hc
    · exact ⟨s, List.mem_cons_self s ss, by rw [hc]⟩
    · obtain ⟨t, ht, hteq⟩ := mem_withFreshIds idOf (n + 1) ss y hc
      exact ⟨t, List.mem_cons_of_mem s ht, hteq⟩

theorem withFreshIds_pairwise (idOf : ℕ → String) :
    ∀ (n : ℕ) (L : List LoopSegment),
      L.Pairwise (fun a b => byStart a b = true) →
      (withFreshIds idOf n L).Pairwise (fun a b => byStart a b = true)
  | _, [], _ => List.Pairwise.nil
  | n, s :: ss, h => by
    rw [List.pairwise_cons] at h
    refine List.pairwise_cons.mpr ⟨?_, withFreshIds_pairwise idOf (n + 1) ss h.2⟩
    intro y hy
    obtain ⟨t, ht, hteq⟩ := mem_withFreshIds idOf (n + 1) ss y hy
    have := h.1 t ht
    simp only [byStart, decide_eq_true_eq] at *
    rw [hteq]
    exact this

/-- Counterexample to C1 as stated: the single-segment list with the empty
label satisfies the claim's hypotheses (`start ≤ end`, sorted by start),
but decoding its encoding replaces the empty label by the default
`"Loop 1"`, so the `(label, start, end)` triples differ. -/
theorem segment_codec_round_trip_counterexample :
    ([⟨"seg-1", "", 0, 1⟩] : List LoopSegment).Pairwise
      (fun a b => a.start ≤ b.start) ∧
    (∀ s ∈ ([⟨"seg-1", "", 0, 1⟩] : List LoopSegment), s.start ≤ s.stop) ∧
    (parseSegmentsOpt (fun _ => "fresh")
        (serializeSegmentsJson [⟨"seg-1", "", 0, 1⟩])).map LoopSegment.triple
      = [("Loop 1", 0, 1)] ∧
    (parseSegmentsOpt (fun _ => "fresh")
        (serializeSegmentsJson [⟨"seg-1", "", 0, 1⟩])).map LoopSegment.triple
      ≠ ([⟨"seg-1", "", 0, 1⟩] : List LoopSegment).map LoopSegment.triple := by
  refine ⟨by simp, by with_unfolding_all decide, by with_unfolding_all decide,
    by with_unfolding_all decide⟩

/-- C1 (amended): decoding the encoding reproduces the `(label, start,
end)` triples in order for every list of segments that is sorted by
`start` and whose segments have `0 ≤ start ≤ end`, bounds already rounded
to two decimals, and labels that are trimmed and non-empty (the decoder
trims labels, replaces blank ones by defaults, clamps bounds to `≥ 0` and
rounds them to two decimals, so these stability conditions are exactly
what the encoder's output must satisfy for the trip to be the identity). -/
theorem segment_codec_round_trip (idOf : ℕ → String) (L : List LoopSegment)
    (h : ∀ s ∈ L, strTrim s.label = s.label ∧ s.label ≠ "" ∧ 0 ≤ s.start ∧
      s.start ≤ s.stop ∧ roundTwo s.start = s.start ∧ roundTwo s.stop = s.stop)
    (hsorted : L.Pairwise (fun a b => a.start ≤ b.start)) :
    (parseSegmentsOpt idOf (serializeSegmentsJson L)).map LoopSegment.triple
      = L.map LoopSegment.triple := by
  cases L with
  | nil => rfl
  | cons x xs =>
    have hlen : ((x :: xs : List LoopSegment)).length = 0 ↔ False := by simp
    have hser : serializeSegmentsJson (x :: xs)
        = some (.arr ((x :: xs).map serEntryJson)) := by
      simp [serializeSegmentsJson]
    rw [hser]
    show (parseSegmentsJson idOf (.arr ((x :: xs).map serEntryJson))).map
      LoopSegment.triple = _
    simp only [parseSegmentsJson]
    rw [decodeEntriesFrom_serialized idOf (x :: xs) h 0]
    rw [stableSortLe_of_sorted byStart _
      (withFreshIds_pairwise idOf 0 (x :: xs)
        (hsorted.imp (fun hab => by
          simpa [byStart, decide_eq_true_eq] using hab)))]
    exact withFreshIds_map_triple idOf 0 (x :: xs)

/-- Witness for the amended C1 on a concrete well-formed list. -/
theorem segment_codec_round_trip_witness :
    (parseSegmentsOpt (fun _ => "fresh")
        (serializeSegmentsJson [⟨"old-id", "A", 1.5, 2⟩])).map LoopSegment.triple
      = ([⟨"old-id", "A", 1.5, 2⟩] : List LoopSegment).map LoopSegment.triple :=
  segment_codec_round_trip (fun _ => "fresh") [⟨"old-id", "A", 1.5, 2⟩]
    (by with_unfolding_all decide) (by simp)

/-! ## String and digit lemmas for the timestamp round trip -/

theorem dropWhile_eq_self_of_all (p : Char → Bool) :
    ∀ l : List Char, (∀ c ∈ l, p c = false) → l.dropWhile p = l
  | [], _ => rfl
  | c :: cs, h => by
    have hc : p c = false := h c (List.mem_cons_self c cs)
    simp [List.dropWhile, hc]

theorem jsTrim_eq_self (l : List Char) (h : ∀ c ∈ l, isJsWs c = false) :
    jsTrim l = l := by
  unfold jsTrim
  rw [dropWhile_eq_self_of_all isJsWs l h]
  rw [dropWhile_eq_self_of_all isJsWs l.reverse
    (fun c hc => h c (List.mem_reverse.mp hc))]
  exact List.reverse_reverse l

theorem takeWhile_eq_self_of_all (p : Char → Bool) :
    ∀ l : List Char, (∀ c ∈ l, p c = true) → l.takeWhile p = l
  | [], _ => rfl
  | c :: cs, h => by
    have hc : p c = true := h c (List.mem_cons_self c cs)
    simp only [List.takeWhile, hc]
    exact congrArg (c :: ·)
      (takeWhile_eq_self_of_all p cs (fun d hd => h d (List.mem_cons_of_mem c hd)))

theorem dropWhile_eq_nil_of_all (p : Char → Bool) :
    ∀ l : List Char, (∀ c ∈ l, p c = true) → l.dropWhile p = []
  | [], _ => rfl
  | c :: cs, h => by
    have hc : p c = true := h c (List.mem_cons_self c cs)
    simp only [List.dropWhile, hc]
    exact dropWhile_eq_nil_of_all p cs (fun d hd => h d (List.mem_cons_of_mem c hd))

theorem takeWhile_append_stop (p : Char → Bool) (x : Char) (r : List Char)
    (hx : p x = false) :
    ∀ a : List Char, (∀ c ∈ a, p c = true) →
      (a ++ x :: r).takeWhile p = a ∧ (a ++ x :: r).dropWhile p = x :: r
  | [], _ => by simp [List.takeWhile, List.dropWhile, hx]
  | c :: cs, h => by
    have hc : p c = true := h c (List.mem_cons_self c cs)
    have ih := takeWhile_append_stop p x r hx cs
      (fun d hd => h d (List.mem_cons_of_mem c hd))
    constructor
    · simp only [List.cons_append, List.takeWhile, hc]
      exact congrArg (c :: ·) ih.1
    · simp only [List.cons_append, List.dropWhile, hc]
      exact ih.2

theorem splitOnCh_of_not_mem (sep : Char) :
    ∀ l : List Char, sep ∉ l → splitOnCh sep l = [l]
  | [], _ => rfl
  | c :: cs, h => by
    have hcs : sep ∉ cs := fun hc => h (List.mem_cons_of_mem c hc)
    have hc : ¬(c = sep) := fun hc => h (hc ▸ List.mem_cons_self c cs)
    simp only [splitOnCh, splitOnCh_of_not_mem sep cs hcs, if_neg hc]

theorem splitOnCh_ne_nil (sep : Char) : ∀ l : List Char, splitOnCh sep l ≠ []
  | [] => by simp [splitOnCh]
  | c :: cs => by
    simp only [splitOnCh]
    cases h : splitOnCh sep cs with
    | nil => exact absurd h (splitOnCh_ne_nil sep cs)
    | cons r rs => by_cases hc : c = sep <;> simp [hc]

theorem splitOnCh_append (sep : Char) (b : List Char) :
    ∀ a : List Char, sep ∉ a →
      splitOnCh sep (a ++ sep :: b) = a :: splitOnCh sep b
  | [], _ => by
    rw [List.nil_append]
    simp only [splitOnCh]
    cases h : splitOnCh sep b with
    | nil => exact absurd h (splitOnCh_ne_nil sep b)
    | cons r rs => simp
  | c :: cs, h => by
    have hcs : sep ∉ cs := fun hc => h (List.mem_cons_of_mem c hc)
    have hc : ¬(c = sep) := fun hc => h (hc ▸ List.mem_cons_self c cs)
    have ih := splitOnCh_append sep b cs hcs
    rw [List.cons_append]
    simp only [splitOnCh, ih]
    rw [if_neg hc]

theorem digitsVal_append_singleton (l : List Char) (c : Char) :
    digitsVal (l ++ [c]) = 10 * digitsVal l + digitVal c := by
  simp [digitsVal, List.foldl_append, Nat.mul_comm]

theorem digitVal_digitCh (d : ℕ) (h : d < 10) : digitVal (digitCh d) = d := by
  interval_cases d <;> decide

theorem isDigitCh_digitCh (d : ℕ) (h : d < 10) : isDigitCh (digitCh d) = true := by
  interval_cases d <;> decide

theorem revDigits_lt_ten : ∀ fuel n : ℕ, ∀ d ∈ revDigits fuel n, d < 10 := by
  intro fuel
  induction fuel with
  | zero => intro n d hd; exact absurd hd (List.not_mem_nil d)
  | succ f ih =>
    intro n d hd
    by_cases hn : n = 0
    · rw [hn] at hd; simp [revDigits] at hd
    · simp only [revDigits, if_neg hn] at hd
      rcases List.mem_cons.mp hd with hc | hc
      · rw [hc]; exact Nat.mod_lt n (by norm_num)
      · exact ih (n / 10) d hc

theorem revDigits_foldr : ∀ fuel n : ℕ, n ≤ fuel →
    (revDigits fuel n).foldr (fun d acc => d + 10 * acc) 0 = n := by
  intro fuel
  induction fuel with
  | zero => intro n hn; interval_cases n; rfl
  | succ f ih =>
    intro n hn
    by_cases h0 : n = 0
    · rw [h0]; rfl
    · simp only [revDigits, if_neg h0, List.foldr_cons]
      have hrec : n / 10 ≤ f := by
        have h1 : n / 10 < n := Nat.div_lt_self (Nat.pos_of_ne_zero h0) (by norm_num)
        omega
      rw [ih (n / 10) hrec]
      omega

theorem digitsVal_reverse_map (ds : List ℕ) (h : ∀ d ∈ ds, d < 10) :
    digitsVal ((ds.map digitCh).reverse) = ds.foldr (fun d acc => d + 10 * acc) 0 := by
  induction ds with
  | nil => rfl
  | cons d rest ih =>
    have hd : d < 10 := h d (List.mem_cons_self d rest)
    simp only [List.map_cons, List.reverse_cons, List.foldr_cons]
    rw [digitsVal_append_singleton, ih (fun e he => h e (List.mem_cons_of_mem d he)),
      digitVal_digitCh d hd]
    ring

theorem digitsVal_decString (n : ℕ) : digitsVal (decString n) = n := by
  by_cases h0 : n = 0
  · rw [h0]; rfl
  · simp only [decString, if_neg h0]
    rw [digitsVal_reverse_map _ (revDigits_lt_ten n n)]
    exact revDigits_foldr n n le_rfl

theorem allDigits_decString (n : ℕ) : allDigits (decString n) = true := by
  by_cases h0 : n = 0
  · rw [h0]; rfl
  · simp only [decString, if_neg h0, allDigits]
    rw [List.all_eq_true]
    intro c hc
    rw [List.mem_reverse] at hc
    obtain ⟨d, hd, rfl⟩ := List.mem_map.mp hc
    exact isDigitCh_digitCh d (revDigits_lt_ten n n d hd)

theorem allDigits_padTwo (l : List Char) (h : allDigits l = true) :
    allDigits (padTwo l) = true := by
  unfold padTwo
  by_cases hl : l.length < 2
  · rw [if_pos hl]
    have h1 : (List.replicate (2 - l.length) '0').all isDigitCh = true := by
      rw [List.all_eq_true]
      intro c hc
      rw [List.eq_of_mem_replicate hc]
      decide
    show (List.replicate (2 - l.length) '0' ++ l).all isDigitCh = true
    rw [List.all_append]
    rw [h1, show l.all isDigitCh = true from h]; rfl
  · rw [if_neg hl]; exact h

theorem digitsVal_replicate_zero (k : ℕ) :
    (List.replicate k '0').foldl (fun a c => a * 10 + digitVal c) 0 = 0 := by
  induction k with
  | zero => rfl
  | succ m ih => simpa [List.replicate_succ, List.foldl_cons] using ih

theorem digitsVal_padTwo (l : List Char) : digitsVal (padTwo l) = digitsVal l := by
  unfold padTwo
  by_cases hl : l.length < 2
  · rw [if_pos hl]
    simp only [digitsVal, List.foldl_append, digitsVal_replicate_zero]
  · rw [if_neg hl]

theorem padTwo_ne_nil (l : List Char) : padTwo l ≠ [] := by
  unfold padTwo
  by_cases hl : l.length < 2
  · rw [if_pos hl]
    intro hc
    rcases List.append_eq_nil.mp hc with ⟨h1, h2⟩
    have := congrArg List.length h1
    simp at this
    omega
  · rw [if_neg hl]
    intro hc
    rw [hc] at hl
    simp at hl

theorem isJsWs_of_digit (c : Char) (h : isDigitCh c = true) : isJsWs c = false := by
  cases hw : isJsWs c
  · rfl
  · exfalso
    have hcs : c = ' ' ∨ c = '\t' ∨ c = '\n' ∨ c = '\r' := by
      simpa [isJsWs, or_assoc] using hw
    rcases hcs with rfl | rfl | rfl | rfl <;> exact absurd h (by decide)

theorem jsUnsignedNumber_digits (l : List Char) (hne : l ≠ [])
    (hd : allDigits l = true) : jsUnsignedNumber l = some ((digitsVal l : ℚ)) := by
  have hall : ∀ c ∈ l, isDigitCh c = true := List.all_eq_true.mp hd
  have hemp : l.isEmpty = false := by
    cases l with
    | nil => exact absurd rfl hne
    | cons c cs => rfl
  unfold jsUnsignedNumber
  rw [takeWhile_eq_self_of_all isDigitCh l hall,
    dropWhile_eq_nil_of_all isDigitCh l hall]
  simp only [hemp, Bool.false_eq_true, if_false]

theorem jsNumber_digits (l : List Char) (hne : l ≠ [])
    (hd : allDigits l = true) : jsNumber l = some ((digitsVal l : ℚ)) := by
  have hall : ∀ c ∈ l, isDigitCh c = true := List.all_eq_true.mp hd
  have hws : ∀ c ∈ l, isJsWs c = false :=
    fun c hc => isJsWs_of_digit c (hall c hc)
  unfold jsNumber
  rw [jsTrim_eq_self l hws]
  split
  next => exact absurd rfl hne
  next rest =>
    exact absurd (hall '-' (List.mem_cons_self _ _)) (by decide)
  next rest =>
    exact absurd (hall '+' (List.mem_cons_self _ _)) (by decide)
  next =>
    exact jsUnsignedNumber_digits l hne hd

theorem jsNumber_digits_dot (a b : List Char) (hne : a ≠ [])
    (ha : allDigits a = true) (hb : allDigits b = true) :
    jsNumber (a ++ '.' :: b)
      = some ((digitsVal a : ℚ) + (digitsVal b : ℚ) / (10 : ℚ) ^ b.length) := by
  have halla : ∀ c ∈ a, isDigitCh c = true := List.all_eq_true.mp ha
  have hallb : ∀ c ∈ b, isDigitCh c = true := List.all_eq_true.mp hb
  have hws : ∀ c ∈ a ++ '.' :: b, isJsWs c = false := by
    intro c hc
    rcases List.mem_append.mp hc with h1 | h1
    · exact isJsWs_of_digit c (halla c h1)
    · rcases List.mem_cons.mp h1 with rfl | h2
      · decide
      · exact isJsWs_of_digit c (hallb c h2)
  have hempa : a.isEmpty = false := by
    cases a with
    | nil => exact absurd rfl hne
    | cons c cs => rfl
  have hsplit := takeWhile_append_stop isDigitCh '.' b (by decide) a halla
  have hhead : ∀ c rest, a ++ '.' :: b = c :: rest → isDigitCh c = true ∨ c = '.' := by
    intro c rest heq
    cases a with
    | nil => right; cases heq; rfl
    | cons a0 as =>
      left
      have : a0 = c := by
        have := congrArg (fun l => l.headD ' ') heq
        simpa using this
      exact this ▸ halla a0 (List.mem_cons_self a0 as)
  unfold jsNumber
  rw [jsTrim_eq_self _ hws]
  split
  next heq =>
    exact absurd heq (by cases a <;> simp)
  next rest heq =>
    exfalso
    rcases hhead '-' rest heq with h1 | h1
    · exact absurd h1 (by decide)
    · exact absurd h1 (by decide)
  next rest heq =>
    exfalso
    rcases hhead '+' rest heq with h1 | h1
    · exact absurd h1 (by decide)
    · exact absurd h1 (by decide)
  next =>
    unfold jsUnsignedNumber
    rw [hsplit.1, hsplit.2]
    simp only [hb, hempa, Bool.false_and, Bool.not_false, Bool.and_true, if_true]

/-- Rounding to two decimals is the identity on integer multiples of one
hundredth. -/
theorem roundTwo_intCast_div (k : ℤ) : roundTwo ((k : ℚ) / 100) = (k : ℚ) / 100 := by
  unfold roundTwo
  rw [div_mul_cancel₀ _ (by norm_num : (100 : ℚ) ≠ 0)]
  rw [Int.floor_int_add]
  have h12 : ⌊(1 / 2 : ℚ)⌋ = 0 := by norm_num
  rw [h12, add_zero]

theorem floor_intCast_div_hundred (k : ℤ) : ⌊(k : ℚ) / 100⌋ = k / 100 := by
  have h := Rat.floor_intCast_div_natCast k 100
  push_cast at h
  exact h

theorem floor_intCast_div_six_thousand (k : ℤ) : ⌊(k : ℚ) / 6000⌋ = k / 6000 := by
  have h := Rat.floor_intCast_div_natCast k 6000
  push_cast at h
  exact h

theorem formatTimestampInput_hundredths (q : ℚ) (K : ℤ) (hK0 : 0 ≤ K)
    (hrt : roundTwo q = (K : ℚ) / 100) :
    formatTimestampInput (some q)
      = ⟨padTwo (decString (K / 6000).toNat) ++ ':' ::
          (if K % 100 = 0 then padTwo (decString (K % 6000 / 100).toNat)
           else padTwo (decString (K % 6000 / 100).toNat) ++ '.' ::
             padTwo (decString (K % 100).toNat))⟩ := by
  have hcast0 : (0 : ℚ) ≤ (K : ℚ) := Int.cast_nonneg.mpr hK0
  have hmax : max 0 ((K : ℚ) / 100) = (K : ℚ) / 100 :=
    max_eq_right (div_nonneg hcast0 (by norm_num))
  have h6000 : ⌊(K : ℚ) / 100 / 60⌋ = K / 6000 := by
    rw [div_div, show (100 : ℚ) * 60 = 6000 from by norm_num]
    exact floor_intCast_div_six_thousand K
  have hKsplit : (6000 : ℤ) * (K / 6000) + K % 6000 = K := Int.ediv_add_emod K 6000
  have hKsplitQ : (6000 : ℚ) * ((K / 6000 : ℤ) : ℚ) + ((K % 6000 : ℤ) : ℚ) = (K : ℚ) := by
    have hq := congrArg (fun z : ℤ => (z : ℚ)) hKsplit
    push_cast at hq
    linarith
  have hsub : (K : ℚ) / 100 - ((K / 6000 : ℤ) : ℚ) * 60 = ((K % 6000 : ℤ) : ℚ) / 100 := by
    rw [div_sub' _ _ _ (by norm_num : (100 : ℚ) ≠ 0), div_eq_div_iff
      (by norm_num : (100 : ℚ) ≠ 0) (by norm_num : (100 : ℚ) ≠ 0)]
    ring_nf
    nlinarith [hKsplitQ]
  have hR0 : (0 : ℤ) ≤ K % 6000 := Int.emod_nonneg K (by norm_num)
  have hRlt : K % 6000 < 6000 := Int.emod_lt_of_pos K (by norm_num)
  have hsec_lt : ((K % 6000 : ℤ) : ℚ) / 100 < 60 := by
    rw [div_lt_iff₀ (by norm_num : (0 : ℚ) < 100)]
    have : ((K % 6000 : ℤ) : ℚ) < 6000 := by exact_mod_cast hRlt
    linarith
  have hnocarry : ¬(((K % 6000 : ℤ) : ℚ) / 100 ≥ 60) := not_le.mpr hsec_lt
  have hsi : ⌊((K % 6000 : ℤ) : ℚ) / 100⌋ = K % 6000 / 100 :=
    floor_intCast_div_hundred (K % 6000)
  have hRsplit : (100 : ℤ) * (K % 6000 / 100) + K % 6000 % 100 = K % 6000 :=
    Int.ediv_add_emod (K % 6000) 100
  have hFK : K % 6000 % 100 = K % 100 :=
    Int.emod_emod_of_dvd K (by norm_num : (100 : ℤ) ∣ 6000)
  have hfr : ((K % 6000 : ℤ) : ℚ) / 100 - ((K % 6000 / 100 : ℤ) : ℚ)
      = ((K % 100 : ℤ) : ℚ) / 100 := by
    have hq := congrArg (fun z : ℤ => (z : ℚ)) hRsplit
    push_cast at hq
    rw [div_sub' _ _ _ (by norm_num : (100 : ℚ) ≠ 0)]
    rw [show ((K % 6000 : ℤ) : ℚ) - 100 * ((K % 6000 / 100 : ℤ) : ℚ)
        = ((K % 6000 % 100 : ℤ) : ℚ) from by linarith]
    rw [hFK]
  have hF0 : (0 : ℤ) ≤ K % 100 := Int.emod_nonneg K (by norm_num)
  simp only [formatTimestampInput]
  rw [hrt, hmax, h6000, hsub, roundTwo_intCast_div, if_neg hnocarry, if_neg hnocarry,
    hsi, hfr, roundTwo_intCast_div]
  by_cases hF : K % 100 = 0
  · rw [hF]
    rw [if_neg (by norm_num : ¬(((0 : ℤ) : ℚ) / 100 > 0))]
    rw [if_pos rfl]
  · have hFpos : 0 < K % 100 := lt_of_le_of_ne hF0 (Ne.symm hF)
    have hFQ : ((K % 100 : ℤ) : ℚ) / 100 > 0 := by
      apply div_pos _ (by norm_num)
      exact_mod_cast hFpos
    rw [if_pos hFQ, if_neg hF]
    have hfi : ⌊((K % 100 : ℤ) : ℚ) / 100 * 100 + 1 / 2⌋ = K % 100 := by
      rw [div_mul_cancel₀ _ (by norm_num : (100 : ℚ) ≠ 0), Int.floor_int_add]
      norm_num
    rw [hfi]

theorem append_cons_isEmpty (a : List Char) (x : Char) (b : List Char) :
    (a ++ x :: b).isEmpty = false := by cases a <;> rfl

theorem isEmpty_false_of_ne_nil (l : List Char) (h : l ≠ []) :
    l.isEmpty = false := by
  cases l with
  | nil => exact absurd rfl h
  | cons c cs => rfl

theorem contains_append_cons (a : List Char) (x : Char) (b : List Char) :
    (a ++ x :: b).contains x = true := by
  have hm : x ∈ a ++ x :: b := List.mem_append.mpr (Or.inr (List.mem_cons_self x b))
  exact List.elem_eq_true_of_mem hm

theorem not_mem_of_allDigits (l : List Char) (h : allDigits l = true)
    (c : Char) (hc : isDigitCh c = false) : c ∉ l := by
  intro hm
  have h2 := List.all_eq_true.mp h c hm
  rw [h2] at hc
  exact Bool.noConfusion hc

theorem padTwo_decString_small : ∀ m : ℕ, m < 100 → (padTwo (decString m)).length = 2 := by
  decide

set_option maxHeartbeats 1000000 in
theorem parseTimestampInput_formatted (K : ℤ) (hK0 : 0 ≤ K) :
    parseTimestampInput ⟨padTwo (decString (K / 6000).toNat) ++ ':' ::
        (if K % 100 = 0 then padTwo (decString (K % 6000 / 100).toNat)
         else padTwo (decString (K % 6000 / 100).toNat) ++ '.' ::
           padTwo (decString (K % 100).toNat))⟩
      = some ((K : ℚ) / 100) := by
  have hR0 : (0 : ℤ) ≤ K % 6000 := Int.emod_nonneg K (by norm_num)
  have hRlt : K % 6000 < 6000 := Int.emod_lt_of_pos K (by norm_num)
  have hF0 : (0 : ℤ) ≤ K % 100 := Int.emod_nonneg K (by norm_num)
  have hFlt : K % 100 < 100 := Int.emod_lt_of_pos K (by norm_num)
  have hM0 : (0 : ℤ) ≤ K / 6000 := Int.ediv_nonneg hK0 (by norm_num)
  have hSI0 : (0 : ℤ) ≤ K % 6000 / 100 := Int.ediv_nonneg hR0 (by norm_num)
  have hKsplit : (6000 : ℤ) * (K / 6000) + K % 6000 = K := Int.ediv_add_emod K 6000
  have hRsplit : (100 : ℤ) * (K % 6000 / 100) + K % 6000 % 100 = K % 6000 :=
    Int.ediv_add_emod (K % 6000) 100
  have hFK : K % 6000 % 100 = K % 100 :=
    Int.emod_emod_of_dvd K (by norm_num : (100 : ℤ) ∣ 6000)
  have hpmd : allDigits (padTwo (decString (K / 6000).toNat)) = true :=
    allDigits_padTwo _ (allDigits_decString _)
  have hpmne : padTwo (decString (K / 6000).toNat) ≠ [] := padTwo_ne_nil _
  have hsdd : allDigits (padTwo (decString (K % 6000 / 100).toNat)) = true :=
    allDigits_padTwo _ (allDigits_decString _)
  have hsdne : padTwo (decString (K % 6000 / 100).toNat) ≠ [] := padTwo_ne_nil _
  have hffd : allDigits (padTwo (decString (K % 100).toNat)) = true :=
    allDigits_padTwo _ (allDigits_decString _)
  have hpmQ : ((digitsVal (padTwo (decString (K / 6000).toNat)) : ℕ) : ℚ)
      = ((K / 6000 : ℤ) : ℚ) := by
    rw [digitsVal_padTwo, digitsVal_decString]
    exact_mod_cast congrArg (fun z : ℤ => (z : ℚ))
      (Int.toNat_of_nonneg hM0)
  have hsdQ : ((digitsVal (padTwo (decString (K % 6000 / 100).toNat)) : ℕ) : ℚ)
      = ((K % 6000 / 100 : ℤ) : ℚ) := by
    rw [digitsVal_padTwo, digitsVal_decString]
    exact_mod_cast congrArg (fun z : ℤ => (z : ℚ))
      (Int.toNat_of_nonneg hSI0)
  have hffQ : ((digitsVal (padTwo (decString (K % 100).toNat)) : ℕ) : ℚ)
      = ((K % 100 : ℤ) : ℚ) := by
    rw [digitsVal_padTwo, digitsVal_decString]
    exact_mod_cast congrArg (fun z : ℤ => (z : ℚ))
      (Int.toNat_of_nonneg hF0)
  have hacc : accumRestParts [padTwo (decString (K / 6000).toNat)] 60
      = some ((digitsVal (padTwo (decString (K / 6000).toNat)) : ℚ) * 60) := by
    simp only [accumRestParts, isEmpty_false_of_ne_nil _ hpmne, Bool.false_eq_true,
      if_false, hpmd, if_true, zero_add]
  have hKQ : (0 : ℚ) ≤ (K : ℚ) / 100 :=
    div_nonneg (Int.cast_nonneg.mpr hK0) (by norm_num)
  by_cases hF : K % 100 = 0
  · rw [if_pos hF]
    have hws : ∀ c ∈ padTwo (decString (K / 6000).toNat) ++ ':' ::
        padTwo (decString (K % 6000 / 100).toNat), isJsWs c = false := by
      intro c hc
      rcases List.mem_append.mp hc with h1 | h1
      · exact isJsWs_of_digit c (List.all_eq_true.mp hpmd c h1)
      · rcases List.mem_cons.mp h1 with rfl | h2
        · decide
        · exact isJsWs_of_digit c (List.all_eq_true.mp hsdd c h2)
    have hcolon_pm : ':' ∉ padTwo (decString (K / 6000).toNat) :=
      not_mem_of_allDigits _ hpmd ':' (by decide)
    have hcolon_ss : ':' ∉ padTwo (decString (K % 6000 / 100).toNat) :=
      not_mem_of_allDigits _ hsdd ':' (by decide)
    simp only [parseTimestampInput]
    rw [jsTrim_eq_self _ hws]
    rw [append_cons_isEmpty, contains_append_cons]
    simp only [Bool.false_eq_true, if_false, Bool.not_true]
    rw [splitOnCh_append ':' _ _ hcolon_pm, splitOnCh_of_not_mem ':' _ hcolon_ss]
    simp only [List.reverse_cons, List.reverse_nil, List.nil_append, List.cons_append,
      List.singleton_append]
    rw [isEmpty_false_of_ne_nil _ hsdne]
    simp only [Bool.false_eq_true, if_false]
    rw [jsNumber_digits _ hsdne hsdd, hacc]
    dsimp only
    have htot : ((digitsVal (padTwo (decString (K % 6000 / 100).toNat)) : ℕ) : ℚ)
        + (digitsVal (padTwo (decString (K / 6000).toNat)) : ℚ) * 60
        = (K : ℚ) / 100 := by
      rw [hsdQ, hpmQ]
      rw [eq_div_iff (by norm_num : (100 : ℚ) ≠ 0)]
      have hKint : K = 6000 * (K / 6000) + 100 * (K % 6000 / 100) := by omega
      have hq := congrArg (fun z : ℤ => (z : ℚ)) hKint
      push_cast at hq
      linarith
    rw [htot, roundTwo_intCast_div, max_eq_right hKQ]
  · rw [if_neg hF]
    have hws : ∀ c ∈ padTwo (decString (K / 6000).toNat) ++ ':' ::
        (padTwo (decString (K % 6000 / 100).toNat) ++ '.' ::
          padTwo (decString (K % 100).toNat)), isJsWs c = false := by
      intro c hc
      rcases List.mem_append.mp hc with h1 | h1
      · exact isJsWs_of_digit c (List.all_eq_true.mp hpmd c h1)
      · rcases List.mem_cons.mp h1 with rfl | h2
        · decide
        · rcases List.mem_append.mp h2 with h3 | h3
          · exact isJsWs_of_digit c (List.all_eq_true.mp hsdd c h3)
          · rcases List.mem_cons.mp h3 with rfl | h4
            · decide
            · exact isJsWs_of_digit c (List.all_eq_true.mp hffd c h4)
    have hcolon_pm : ':' ∉ padTwo (decString (K / 6000).toNat) :=
      not_mem_of_allDigits _ hpmd ':' (by decide)
    have hcolon_ss : ':' ∉ padTwo (decString (K % 6000 / 100).toNat) ++ '.' ::
        padTwo (decString (K % 100).toNat) := by
      intro hm
      rcases List.mem_append.mp hm with h1 | h1
      · exact not_mem_of_allDigits _ hsdd ':' (by decide) h1
      · rcases List.mem_cons.mp h1 with hc | h2
        · exact absurd hc (by decide)
        · exact not_mem_of_allDigits _ hffd ':' (by decide) h2
    have hssne : padTwo (decString (K % 6000 / 100).toNat) ++ '.' ::
        padTwo (decString (K % 100).toNat) ≠ [] := by
      intro hc
      rcases List.append_eq_nil.mp hc with ⟨h1, h2⟩
      exact List.noConfusion h2
    have hFnat : (K % 100).toNat < 100 := by omega
    have hlen : (padTwo (decString (K % 100).toNat)).length = 2 :=
      padTwo_decString_small _ hFnat
    simp only [parseTimestampInput]
    rw [jsTrim_eq_self _ hws]
    rw [append_cons_isEmpty, contains_append_cons]
    simp only [Bool.false_eq_true, if_false, Bool.not_true]
    rw [splitOnCh_append ':' _ _ hcolon_pm, splitOnCh_of_not_mem ':' _ hcolon_ss]
    simp only [List.reverse_cons, List.reverse_nil, List.nil_append, List.cons_append,
      List.singleton_append]
    rw [isEmpty_false_of_ne_nil _ hssne]
    simp only [Bool.false_eq_true, if_false]
    rw [jsNumber_digits_dot _ _ hsdne hsdd hffd, hacc, hlen]
    dsimp only
    have htot : ((digitsVal (padTwo (decString (K % 6000 / 100).toNat)) : ℕ) : ℚ)
        + ((digitsVal (padTwo (decString (K % 100).toNat)) : ℕ) : ℚ) / (10 : ℚ) ^ 2
        + (digitsVal (padTwo (decString (K / 6000).toNat)) : ℚ) * 60
        = (K : ℚ) / 100 := by
      rw [hsdQ, hpmQ, hffQ, show ((10 : ℚ) ^ 2) = 100 from by norm_num]
      rw [eq_div_iff (by norm_num : (100 : ℚ) ≠ 0)]
      have hKint : K = 6000 * (K / 6000) + 100 * (K % 6000 / 100) + K % 100 := by
        omega
      have hq := congrArg (fun z : ℤ => (z : ℚ)) hKint
      push_cast at hq
      ring_nf
      linarith
    rw [htot, roundTwo_intCast_div, max_eq_right hKQ]

/-! ## Claim C3: editable-timestamp round trip -/

/-- C3: for every (finite) value `s ≥ 0`, parsing the editable text
produced by `formatTimestampInput` gives back exactly `s` rounded to two
decimal places. -/
theorem parse_format_editable (q : ℚ) (hq : 0 ≤ q) :
    parseTimestampInput (formatTimestampInput (some q)) = some (roundTwo q) := by
  obtain ⟨K, hK⟩ : ∃ K : ℤ, ⌊q * 100 + 1 / 2⌋ = K := ⟨_, rfl⟩
  have hrt : roundTwo q = (K : ℚ) / 100 := by unfold roundTwo; rw [hK]
  have hK0 : 0 ≤ K := by
    rw [← hK]
    apply Int.le_floor.mpr
    push_cast
    linarith
  rw [formatTimestampInput_hundredths q K hK0 hrt,
    parseTimestampInput_formatted K hK0, hrt]

/-- Witness for C3 at `s = 61.5`: the editable text is `"01:01.50"` and it
parses back to `61.5`. -/
theorem parse_format_editable_witness :
    parseTimestampInput (formatTimestampInput (some 61.5)) = some (roundTwo 61.5) :=
  parse_format_editable 61.5 (by norm_num)

/-! ## Lemmas for the link-builder round trip -/

theorem char_toNat_lt (c : Char) : c.toNat < 1114112 := by
  rcases c.valid with h | ⟨h1, h2⟩
  · have hb := UInt32.toNat_lt_of_lt (by norm_num : (55296 : ℕ) < UInt32.size) h
    exact Nat.lt_trans hb (by norm_num)
  · exact UInt32.toNat_lt_of_lt (by norm_num : (1114112 : ℕ) < UInt32.size) h2

theorem utf8Bytes_lt (c : Char) : ∀ b ∈ utf8Bytes c, b < 256 := by
  intro b hb
  have hc := char_toNat_lt c
  simp only [utf8Bytes] at hb
  split_ifs at hb with h1 h2 h3
  · rcases List.mem_singleton.mp hb with rfl
    omega
  · rcases List.mem_cons.mp hb with rfl | hb2
    · omega
    · rcases List.mem_singleton.mp hb2 with rfl
      omega
  · rcases List.mem_cons.mp hb with rfl | hb2
    · omega
    · rcases List.mem_cons.mp hb2 with rfl | hb3
      · omega
      · rcases List.mem_singleton.mp hb3 with rfl
        omega
  · rcases List.mem_cons.mp hb with rfl | hb2
    · omega
    · rcases List.mem_cons.mp hb2 with rfl | hb3
      · omega
      · rcases List.mem_cons.mp hb3 with rfl | hb4
        · omega
        · rcases List.mem_singleton.mp hb4 with rfl
          omega

theorem isFormSafe_of_idCh (c : Char) (h : isIdCh c = true) : isFormSafe c = true := by
  simp only [isIdCh, Bool.or_eq_true, decide_eq_true_eq] at h
  simp only [isFormSafe, Bool.or_eq_true, decide_eq_true_eq]
  tauto

theorem idCh_facts (c : Char) (h : isIdCh c = true) :
    c ≠ '&' ∧ c ≠ '=' ∧ c ≠ '#' ∧ c ≠ '?' ∧ c ≠ '/' ∧ c ≠ ':' ∧ c ≠ '@' ∧
    c ≠ '%' ∧ c ≠ '+' ∧ c ≠ '.' ∧ isJsWs c = false := by
  refine ⟨?_, ?_, ?_, ?_, ?_, ?_, ?_, ?_, ?_, ?_, ?_⟩ <;>
    first
    | (intro heq; subst heq; exact absurd h (by decide))
    | (cases hw : isJsWs c
       · rfl
       · exfalso
         have hcs : c = ' ' ∨ c = '\t' ∨ c = '\n' ∨ c = '\r' := by
           simpa [isJsWs, or_assoc] using hw
         rcases hcs with rfl | rfl | rfl | rfl <;> exact absurd h (by decide))

theorem formSafe_facts (c : Char) (h : isFormSafe c = true) :
    c ≠ '&' ∧ c ≠ '=' ∧ c ≠ '#' ∧ c ≠ '?' ∧ c ≠ '/' ∧ c ≠ ':' ∧ c ≠ '@' ∧
    isJsWs c = false := by
  refine ⟨?_, ?_, ?_, ?_, ?_, ?_, ?_, ?_⟩ <;>
    first
    | (intro heq; subst heq; exact absurd h (by decide))
    | (cases hw : isJsWs c
       · rfl
       · exfalso
         have hcs : c = ' ' ∨ c = '\t' ∨ c = '\n' ∨ c = '\r' := by
           simpa [isJsWs, or_assoc] using hw
         rcases hcs with rfl | rfl | rfl | rfl <;> exact absurd h (by decide))

theorem hexCh_facts (m : ℕ) (hm : m < 16) :
    hexCh m ≠ '&' ∧ hexCh m ≠ '=' ∧ hexCh m ≠ '#' ∧ hexCh m ≠ '?' ∧
    hexCh m ≠ '/' ∧ hexCh m ≠ ':' ∧ hexCh m ≠ '@' ∧ isJsWs (hexCh m) = false := by
  interval_cases m <;> exact (by decide)

theorem formEncodeChar_safe (c : Char) (h : isFormSafe c = true) :
    formEncodeChar c = [c] := by
  have hsp : ¬(c = ' ') := by
    intro heq; subst heq; exact absurd h (by decide)
  simp only [formEncodeChar, if_neg hsp, h, if_true]

theorem formEncode_of_safe (l : List Char) (h : ∀ c ∈ l, isFormSafe c = true) :
    formEncode l = l := by
  induction l with
  | nil => rfl
  | cons c cs ih =>
    simp only [formEncode, List.flatMap_cons] at *
    rw [formEncodeChar_safe c (h c (List.mem_cons_self c cs))]
    rw [ih (fun d hd => h d (List.mem_cons_of_mem c hd))]
    rfl

theorem mem_formEncode_facts (l : List Char) (d : Char) (hd : d ∈ formEncode l) :
    d ≠ '&' ∧ d ≠ '=' ∧ d ≠ '#' ∧ d ≠ '?' ∧ d ≠ '/' ∧ d ≠ ':' ∧ d ≠ '@' ∧
    isJsWs d = false := by
  obtain ⟨c, _, hdc⟩ := List.mem_flatMap.mp hd
  unfold formEncodeChar at hdc
  by_cases hsp : c = ' '
  · rw [if_pos hsp] at hdc
    rcases List.mem_singleton.mp hdc with rfl
    exact ⟨by decide, by decide, by decide, by decide, by decide, by decide,
      by decide, by decide⟩
  · rw [if_neg hsp] at hdc
    by_cases hsafe : isFormSafe c = true
    · rw [if_pos hsafe] at hdc
      rcases List.mem_singleton.mp hdc with rfl
      exact formSafe_facts d hsafe
    · rw [if_neg hsafe] at hdc
      obtain ⟨b, hbmem, hdb⟩ := List.mem_flatMap.mp hdc
      have hb256 := utf8Bytes_lt c b hbmem
      rcases List.mem_cons.mp hdb with rfl | hdb2
      · exact ⟨by decide, by decide, by decide, by decide, by decide, by decide,
          by decide, by decide⟩
      · rcases List.mem_cons.mp hdb2 with rfl | hdb3
        · exact hexCh_facts (b / 16) (by omega)
        · rcases List.mem_singleton.mp hdb3 with rfl
          exact hexCh_facts (b % 16) (Nat.mod_lt b (by norm_num))

theorem formDecode_eq_self : ∀ l : List Char,
    (∀ c ∈ l, c ≠ '%' ∧ c ≠ '+') → formDecode l = l
  | [] , _ => rfl
  | c :: rest, h => by
    have hc := h c (List.mem_cons_self c rest)
    have ih := formDecode_eq_self rest (fun d hd => h d (List.mem_cons_of_mem c hd))
    unfold formDecode
    split
    next heq => exact absurd heq (by simp)
    next r heq =>
      exfalso
      exact hc.2 ((List.cons.injEq _ _ _ _).mp heq).1
    next h1 h2 r2 heq =>
      exfalso
      exact hc.1 ((List.cons.injEq _ _ _ _).mp heq).1
    next c2 r2 hplus hpct heq =>
      obtain ⟨rfl, rfl⟩ := (List.cons.injEq _ _ _ _).mp heq
      rw [ih]

theorem parseUrl_watch (qs : List Char) (hqs : ∀ c ∈ qs, c ≠ '#') :
    parseUrl ("https://www.youtube.com/watch?".data ++ qs)
      = some { hostname := "www.youtube.com".data, pathname := "/watch".data,
               search := qs } := by
  have hred : parseUrl ("https://www.youtube.com/watch?".data ++ qs)
      = some { hostname := "www.youtube.com".data, pathname := "/watch".data,
               search := qs.takeWhile (fun c => c ≠ '#') } := rfl
  rw [hred, takeWhile_eq_self_of_all _ qs (fun c hc => decide_eq_true (hqs c hc))]

theorem extract_watch_core (idl rest2 : List Char)
    (hid : isYouTubeId idl = true)
    (hws2 : ∀ c ∈ rest2, isJsWs c = false)
    (hh2 : ∀ c ∈ rest2, c ≠ '#')
    (hr2 : rest2 = [] ∨ ∃ t, rest2 = '&' :: t) :
    extractYouTubeId
        ⟨"https://www.youtube.com/watch?".data ++ 'v' :: '=' :: (idl ++ rest2)⟩
      = some ⟨idl⟩ := by
  have hidboth : idl.length = 11 ∧ idl.all isIdCh = true := by
    have h := hid
    unfold isYouTubeId at h
    rw [Bool.and_eq_true] at h
    exact ⟨of_decide_eq_true h.1, h.2⟩
  have hidch : ∀ c ∈ idl, isIdCh c = true := List.all_eq_true.mp hidboth.2
  have hid11 : idl.length = 11 := hidboth.1
  have hidne : idl ≠ [] := by
    intro hc
    rw [hc] at hid11
    exact absurd hid11 (by decide)
  have hP : ∀ c ∈ "https://www.youtube.com/watch?".data, isJsWs c = false := by
    decide
  have hws : ∀ c ∈ "https://www.youtube.com/watch?".data ++
      'v' :: '=' :: (idl ++ rest2), isJsWs c = false := by
    intro c hc
    rcases List.mem_append.mp hc with h1 | h1
    · exact hP c h1
    · rcases List.mem_cons.mp h1 with rfl | h2
      · decide
      · rcases List.mem_cons.mp h2 with rfl | h3
        · decide
        · rcases List.mem_append.mp h3 with h4 | h4
          · exact (idCh_facts c (hidch c h4)).2.2.2.2.2.2.2.2.2.2
          · exact hws2 c h4
  have hjt : jsTrim ("https://www.youtube.com/watch?".data ++
      'v' :: '=' :: (idl ++ rest2)) = "https://www.youtube.com/watch?".data ++
      'v' :: '=' :: (idl ++ rest2) := jsTrim_eq_self _ hws
  have hqsC : ∀ c ∈ ('v' : Char) :: '=' :: (idl ++ rest2), c ≠ '#' := by
    intro c hc
    rcases List.mem_cons.mp hc with rfl | h2
    · decide
    · rcases List.mem_cons.mp h2 with rfl | h3
      · decide
      · rcases List.mem_append.mp h3 with h4 | h4
        · exact (idCh_facts c (hidch c h4)).2.2.1
        · exact hh2 c h4
  have hnid : isYouTubeId ("https://www.youtube.com/watch?".data ++
      'v' :: '=' :: (idl ++ rest2)) = false := by
    have h11 : ¬(("https://www.youtube.com/watch?".data ++
        'v' :: '=' :: (idl ++ rest2)).length = 11) := by
      rw [List.length_append]
      have h30 : ("https://www.youtube.com/watch?".data).length = 30 := rfl
      omega
    unfold isYouTubeId
    rw [decide_eq_false h11, Bool.false_and]
  have hnorm : normalizeYouTubeId (some ("https://www.youtube.com/watch?".data ++
      'v' :: '=' :: (idl ++ rest2))) = none := by
    unfold normalizeYouTubeId
    dsimp only
    rw [show ("https://www.youtube.com/watch?".data ++
      'v' :: '=' :: (idl ++ rest2)).isEmpty = false from rfl]
    simp only [Bool.false_eq_true, if_false]
    rw [hjt, hnid]
    simp only [Bool.false_eq_true, if_false]
  have hfd : formDecode idl = idl := by
    apply formDecode_eq_self
    intro c hc
    exact ⟨(idCh_facts c (hidch c hc)).2.2.2.2.2.2.2.1,
      (idCh_facts c (hidch c hc)).2.2.2.2.2.2.2.2.1⟩
  have hqg : queryGet ('v' :: '=' :: (idl ++ rest2)) "v".data = some idl := by
    have hamp_v : ('&' : Char) ∉ ('v' : Char) :: '=' :: idl := by
      intro hm
      rcases List.mem_cons.mp hm with hc | hm2
      · exact absurd hc (by decide)
      · rcases List.mem_cons.mp hm2 with hc | hm3
        · exact absurd hc (by decide)
        · exact absurd rfl (idCh_facts '&' (hidch '&' hm3)).1
    have hparts : ∃ rest, splitOnCh '&' ('v' :: '=' :: (idl ++ rest2))
        = ('v' :: '=' :: idl) :: rest := by
      rcases hr2 with rfl | ⟨t, rfl⟩
      · rw [List.append_nil]
        exact ⟨[], splitOnCh_of_not_mem '&' _ hamp_v⟩
      · refine ⟨splitOnCh '&' t, ?_⟩
        rw [show ('v' : Char) :: '=' :: (idl ++ '&' :: t)
            = (('v' : Char) :: '=' :: idl) ++ '&' :: t from by
          simp [List.cons_append]]
        exact splitOnCh_append '&' t _ hamp_v
    obtain ⟨rest, hrest⟩ := hparts
    unfold queryGet queryPairs
    rw [hrest]
    rw [List.filterMap_cons]
    rw [show (('v' : Char) :: '=' :: idl).isEmpty = false from rfl]
    simp only [Bool.false_eq_true, if_false]
    rw [show (('v' : Char) :: '=' :: idl).takeWhile (fun c => c ≠ '=') = ['v'] from rfl]
    rw [show ((('v' : Char) :: '=' :: idl).dropWhile (fun c => c ≠ '=')).drop 1
        = idl from rfl]
    rw [show formDecode ['v'] = ['v'] from rfl, hfd]
    rw [List.find?_cons]
    dsimp only
    rw [show (decide ((['v'] : List Char) = "v".data)) = true from by decide]
    rfl
  have hnorm2 : normalizeYouTubeId (some idl) = some idl := by
    unfold normalizeYouTubeId
    dsimp only
    rw [isEmpty_false_of_ne_nil idl hidne]
    simp only [Bool.false_eq_true, if_false]
    rw [jsTrim_eq_self idl
      (fun c hc => (idCh_facts c (hidch c hc)).2.2.2.2.2.2.2.2.2.2), hid]
    simp only [if_true]
  show (if (jsTrim ("https://www.youtube.com/watch?".data ++
          'v' :: '=' :: (idl ++ rest2))).isEmpty = true then none
    else
      match normalizeYouTubeId (some (jsTrim ("https://www.youtube.com/watch?".data ++
          'v' :: '=' :: (idl ++ rest2)))) with
      | some direct => some ⟨direct⟩
      | none =>
        match parseUrl (jsTrim ("https://www.youtube.com/watch?".data ++
            'v' :: '=' :: (idl ++ rest2))) with
        | none => none
        | some url =>
          if stripWww url.hostname = "youtu.be".data then
            (normalizeYouTubeId (pathSegs url.pathname).head?).map
              (fun r => (⟨r⟩ : String))
          else if stripWww url.hostname = "youtube.com".data ||
              stripWww url.hostname = "m.youtube.com".data then
            match normalizeYouTubeId (queryGet url.search "v".data) with
            | some idFromQuery => some ⟨idFromQuery⟩
            | none =>
              match (pathSegs url.pathname).findIdx? (fun s => s = "embed".data) with
              | some i =>
                (normalizeYouTubeId (pathSegs url.pathname)[i + 1]?).map
                  (fun r => (⟨r⟩ : String))
              | none => none
          else if stripWww url.hostname = "youtube-nocookie.com".data then
            match (pathSegs url.pathname).findIdx? (fun s => s = "embed".data) with
            | some i =>
              (normalizeYouTubeId (pathSegs url.pathname)[i + 1]?).map
                (fun r => (⟨r⟩ : String))
            | none => none
          else none)
    = some (⟨idl⟩ : String)
  rw [hjt]
  rw [show ("https://www.youtube.com/watch?".data ++
      'v' :: '=' :: (idl ++ rest2)).isEmpty = false from rfl]
  simp only [Bool.false_eq_true, if_false]
  rw [hnorm]
  rw [parseUrl_watch _ hqsC]
  dsimp only
  rw [show stripWww "www.youtube.com".data = "youtube.com".data from by decide]
  rw [if_neg (by decide)]
  rw [show (decide ("youtube.com".data = "youtube.com".data) ||
      decide ("youtube.com".data = "m.youtube.com".data)) = true from by decide]
  simp only [if_true]
  rw [hqg, hnorm2]

/-! ## Claim C9: link-builder/extractor round trip -/

/-- C9: for every identifier matching the 11-character pattern and every
segment list, extracting from the canonical link built by `buildVideoLink`
returns exactly that identifier. -/
theorem build_extract_round_trip (videoId : String) (L : List LoopSegment)
    (h : isYouTubeId videoId.data = true) :
    extractYouTubeId (buildVideoLink videoId L) = some videoId := by
  have hidch : ∀ c ∈ videoId.data, isIdCh c = true := by
    have h2 := h
    unfold isYouTubeId at h2
    rw [Bool.and_eq_true] at h2
    exact List.all_eq_true.mp h2.2
  have hencid : formEncode videoId.data = videoId.data :=
    formEncode_of_safe _ (fun c hc => isFormSafe_of_idCh c (hidch c hc))
  cases hser : serializeSegments L with
  | none =>
    have hb : buildVideoLink videoId L
        = ⟨"https://www.youtube.com/watch?".data ++
            ('v' :: '=' :: (videoId.data ++ []))⟩ := by
      unfold buildVideoLink
      rw [hser]
      dsimp only
      rw [show queryToString [("v".data, videoId.data)]
          = 'v' :: '=' :: formEncode videoId.data from rfl]
      rw [hencid, List.append_nil]
    rw [hb]
    exact extract_watch_core videoId.data [] h (by simp) (by simp) (Or.inl rfl)
  | some sr =>
    have hb : buildVideoLink videoId L
        = ⟨"https://www.youtube.com/watch?".data ++
            ('v' :: '=' :: (videoId.data ++
              ('&' :: ("segments".data ++ '=' :: formEncode sr))))⟩ := by
      unfold buildVideoLink
      rw [hser]
      dsimp only
      rw [show queryToString [("v".data, videoId.data), ("segments".data, sr)]
          = 'v' :: '=' :: (formEncode videoId.data ++
              '&' :: ("segments".data ++ '=' :: formEncode sr)) from rfl]
      rw [hencid]
    rw [hb]
    apply extract_watch_core videoId.data _ h
    · intro c hc
      rcases List.mem_cons.mp hc with rfl | h2
      · decide
      · rcases List.mem_append.mp h2 with h3 | h3
        · revert h3
          have hseg : ∀ c ∈ "segments".data, isJsWs c = false := by decide
          exact hseg c
        · rcases List.mem_cons.mp h3 with rfl | h4
          · decide
          · exact (mem_formEncode_facts sr c h4).2.2.2.2.2.2.2
    · intro c hc
      rcases List.mem_cons.mp hc with rfl | h2
      · decide
      · rcases List.mem_append.mp h2 with h3 | h3
        · revert h3
          have hseg : ∀ c ∈ "segments".data, c ≠ '#' := by decide
          exact hseg c
        · rcases List.mem_cons.mp h3 with rfl | h4
          · decide
          · exact (mem_formEncode_facts sr c h4).2.2.1
    · exact Or.inr ⟨_, rfl⟩

/-- Witness for C9: the canonical id round trips through a link with no
segments. -/
theorem build_extract_round_trip_witness :
    extractYouTubeId (buildVideoLink "dQw4w9WgXcQ" []) = some "dQw4w9WgXcQ" :=
  build_extract_round_trip "dQw4w9WgXcQ" [] (by decide)
